import Mathlib

/-!
# UnixFS-v1 block encoder (`internal/dagger/encoder/unixfsv1/impl.go`)

A shallow embedding of the encoder of `ipfs/DAGger` and the properties of its
leaf, link and frame-size operations.

Conventions of the embedding:

* a byte is a natural number below 256, a byte string is a `List Nat`;
* Go `uint64` values are natural numbers, `uint64` additions are reduced
  modulo `2^64`;
* Go `int` values are integers, `int` arithmetic is reduced into
  `[-2^63, 2^63)` by `wrapInt`, and the conversions `uint64(x)` and `byte(x)`
  are `uint64OfInt` and `byteOfInt`;
* a slice expression that is out of range panics: the function returns `none`;
* the two collaborators the encoder calls, the block factory and the
  post-creation callback, are recorded in an explicit `World`: the block
  factory is a function of the encoder configuration whose every call is
  logged with its arguments, the callback is a log of events.
-/

namespace unixfsv1

/-! ## Machine integers -/

/-- Go `int` on a 64-bit platform: the two's complement representative of `x`
in `[-2^63, 2^63)`.  Sums and products of `int`s are wrapped once, which is the
same as wrapping after every operation. -/
def wrapInt (x : Int) : Int := (x + 2 ^ 63) % 2 ^ 64 - 2 ^ 63

/-- The Go conversion `uint64(x)` of an `int`. -/
def uint64OfInt (x : Int) : Nat := (x % 2 ^ 64).toNat

/-- The Go conversion `byte(x)` of an `int`. -/
def byteOfInt (x : Int) : Nat := (x % 256).toNat

/-- The Go builtin `len` of a slice, an `int`. -/
def len (bs : List Nat) : Int := (bs.length : Int)

/-- The Go slice expression `s[from:]`: panics when `from` exceeds the
length. -/
def sliceFrom (s : List Nat) (lo : Nat) : Option (List Nat) :=
  if lo ≤ s.length then some (s.drop lo) else none

/-! ## Wire primitives (package `util`) -/

/-- LEB128 bytes of `v`, least significant group first; the recursion is
structural in `fuel`. -/
def appendVarint : Nat → Nat → List Nat
  | 0, v => [v]
  | fuel + 1, v =>
    if v > 127 then (v % 128 + 128) :: appendVarint fuel (v / 128) else [v]

/-- Modelled from the spec: `util.VarintSlice` (package `util` is not among the
source files) is the unsigned LEB128 encoder of section 4.1: 7 data bits per
byte, continuation bit set on all but the last byte.  The fuel `v` is never
exhausted, since every step divides the value by 128. -/
def VarintSlice (v : Nat) : List Nat := appendVarint v v

/-- Number of 7-bit groups of `v`, at least one; structural in `fuel`. -/
def varintGroups : Nat → Nat → Nat
  | 0, _ => 1
  | fuel + 1, v => if v < 128 then 1 else 1 + varintGroups fuel (v / 128)

/-- Modelled from the spec: `util.VarintWireSize` (package `util` is not among
the source files) reports the number of bytes the varint encoding of `v`
occupies (section 4.1), an `int`; it counts the 7-bit groups of `v` without
building the bytes. -/
def VarintWireSize (v : Nat) : Int := (varintGroups v v : Nat)

/-- Decoder of unsigned LEB128: the value and the unread rest, `none` when the
input ends inside a varint. -/
def decodeVarint : List Nat → Option (Nat × List Nat)
  | [] => none
  | b :: rest =>
    if b < 128 then some (b, rest)
    else match decodeVarint rest with
      | some (v, r) => some (b % 128 + 128 * v, r)
      | none => none

/-! ## Protobuf header bytes (the two `const` blocks, `iota` = 0, 1, 2, 3) -/

def pbHdrF1VI : Nat := 0 ||| ((0 + 1) <<< 3)
def pbHdrF2VI : Nat := 0 ||| ((1 + 1) <<< 3)
def pbHdrF3VI : Nat := 0 ||| ((2 + 1) <<< 3)
def pbHdrF4VI : Nat := 0 ||| ((3 + 1) <<< 3)
def pbHdrF1LD : Nat := 2 ||| ((0 + 1) <<< 3)
def pbHdrF2LD : Nat := 2 ||| ((1 + 1) <<< 3)
def pbHdrF3LD : Nat := 2 ||| ((2 + 1) <<< 3)
def pbHdrF4LD : Nat := 2 ||| ((3 + 1) <<< 3)

/-! ## Zero-copy buffer (package `zcpstring`) -/

/-- Modelled from the spec: `zcpstring.ZcpString` (package `zcpstring` is not
among the source files) is the append-only byte builder of section 6; it
preserves append order, so its content is the list of the bytes appended. -/
abbrev ZcpString := List Nat

namespace ZcpString

/-- The constructor `zcpstring.NewWithSegmentCap`: an empty buffer; the
capacity only sizes the segment table. -/
def NewWithSegmentCap (_cap : Int) : ZcpString := []

/-- The zero value `&zcpstring.ZcpString{}`: an empty buffer. -/
def empty : ZcpString := []

/-- The constructor `zcpstring.NewFromSlice`. -/
def NewFromSlice (s : List Nat) : ZcpString := s

/-- The method `AddByte`: append one owned byte. -/
def AddByte (z : ZcpString) (b : Nat) : ZcpString := z ++ [b]

/-- The method `AddSlice`: append an owned byte slice. -/
def AddSlice (z : ZcpString) (s : List Nat) : ZcpString := z ++ s

/-- The method `AddZcp`: append the content of another buffer. -/
def AddZcp (z : ZcpString) (other : ZcpString) : ZcpString := z ++ other

/-- The method `Size`: total size so far, an `int`. -/
def Size (z : ZcpString) : Int := (z.length : Int)

end ZcpString

/-! ## Data model (packages `block` and `encoder`) -/

/-- Modelled from the spec: the codec tags `dgrblock.CodecRaw` and
`dgrblock.CodecPB` (package `block` is not among the source files), raw or
DAG-protobuf (section 3). -/
inductive Codec
  | CodecRaw
  | CodecPB
  deriving DecidableEq

/-- Modelled from the spec: the type `dgrblock.LeafSource` (package `block` is
not among the source files), a reference to the content bytes plus a declared
size (section 3); the encoder reads its fields `Content` and `Size`, a Go
`int`. -/
structure LeafSource where
  Content : ZcpString
  Size : Int
  deriving DecidableEq

/-- Modelled from the spec: the type `dgrblock.Header` (package `block` is not
among the source files), as far as the encoder reads it: the results of its
accessors `Cid`, `IsCidInlined`, `SizeCumulativePayload` and
`SizeCumulativeDag` (section 3; the two sizes are `uint64`). -/
structure Header where
  Cid : List Nat
  IsCidInlined : Bool
  SizeCumulativePayload : Nat
  SizeCumulativeDag : Nat
  deriving DecidableEq

/-- Modelled from the spec: the five arguments of one call of the block factory
`BlockMaker` (declared in package `encoder`, not among the source files):
bytes, codec, cumulative payload size, children dag size and link-section size
(section 6). -/
structure MakerArgs where
  blockContent : ZcpString
  codecID : Codec
  sizePayload : Nat
  sizeSubDag : Nat
  sizeLinkSection : Int
  deriving DecidableEq

/-- Modelled from the spec: the type `dgrencoder.NodeOrigin` (package `encoder`
is not among the source files), an opaque marker handed through to the
callback (section 4.3); here a pair of integers. -/
structure NodeOrigin where
  OriginatingLayer : Int
  LocalSubLayer : Int
  deriving DecidableEq

/-- One invocation of `NewLinkBlockCallback(origin, header, aux)`; the
auxiliary value is `none` for Go `nil`. -/
structure CallbackEvent where
  origin : NodeOrigin
  header : Header
  aux : Option Nat
  deriving DecidableEq

/-- What the collaborators have observed so far: the calls the block factory
received and the callback invocations, oldest first. -/
structure World where
  made : List MakerArgs
  events : List CallbackEvent
  deriving DecidableEq

/-- The struct `encoder`: the embedded `config` and, of the embedded
`DaggerConfig`, the block factory. -/
structure encoder where
  CompatPb : Bool
  LegacyCIDv0Links : Bool
  NonstandardLeanLinks : Bool
  UnixFsType : Int
  BlockMaker : MakerArgs → Header

/-- A call `e.BlockMaker(content, codec, payload, subDag, linkSection)`: the
factory's header, and the call recorded in the world. -/
def encoder.callBlockMaker (e : encoder) (a : MakerArgs) (w : World) : Header × World :=
  (e.BlockMaker a, { w with made := w.made ++ [a] })

/-- Modelled from the spec: a call `e.NewLinkBlockCallback(origin, h, aux)` of
the post-creation callback (a field of `DaggerConfig`, not among the source
files): an observable event with no return value (section 6). -/
def encoder.NewLinkBlockCallback (_e : encoder) (origin : NodeOrigin) (h : Header)
    (aux : Option Nat) (w : World) : World :=
  { w with events := w.events ++ [⟨origin, h, aux⟩] }

/-! ## The encoder -/

/-- The method `compatNulBlock`. -/
def encoder.compatNulBlock (e : encoder) (w : World) : Header × World :=
  e.callBlockMaker
    ⟨ZcpString.NewFromSlice [0x0a, 0x04, 0x08, 0x02, 0x18, 0x00], Codec.CodecPB, 0, 0, 0⟩ w

/-- The method `NewLeaf`. -/
def encoder.NewLeaf (e : encoder) (ls : LeafSource) (w : World) : Header × World :=
  if e.UnixFsType = -1 then
    e.callBlockMaker ⟨ls.Content, Codec.CodecRaw, uint64OfInt ls.Size, 0, 0⟩ w
  else if ls.Size = 0 then
    e.compatNulBlock w
  else
    let dataLen := VarintSlice (uint64OfInt ls.Size)
    let blockData := ZcpString.NewWithSegmentCap 9
    let blockData := blockData.AddByte pbHdrF1LD
    let blockData := blockData.AddSlice
      (VarintSlice (uint64OfInt (wrapInt (3 + 2 * len dataLen + ls.Size + 1))))
    let blockData := blockData.AddByte pbHdrF1VI
    let blockData := blockData.AddByte (byteOfInt e.UnixFsType)
    let blockData := blockData.AddByte pbHdrF2LD
    let blockData := blockData.AddSlice dataLen
    let blockData := blockData.AddZcp ls.Content
    let blockData := blockData.AddByte pbHdrF3VI
    let blockData := blockData.AddSlice dataLen
    e.callBlockMaker ⟨blockData, Codec.CodecPB, uint64OfInt ls.Size, 0, 0⟩ w

/-- The identifier a link carries (lines 79 to 86 of `NewLink`): the child's
identifier, without its first two bytes in the CIDv0 case. -/
def encoder.linkCid (e : encoder) (b : Header) : Option (List Nat) :=
  let cid := b.Cid
  if e.LegacyCIDv0Links && !b.IsCidInlined &&
      (b.SizeCumulativePayload != b.SizeCumulativeDag) then
    sliceFrom cid 2
  else
    some cid

/-- The variables the loop of `NewLink` updates. -/
structure LinkLoop where
  linkSection : ZcpString
  seekOffsets : ZcpString
  totalPayload : Nat
  subDagSize : Nat
  deriving DecidableEq

/-- One iteration of the loop of `NewLink`, for the child `b`. -/
def encoder.linkStep (e : encoder) (st : LinkLoop) (b : Header) : Option LinkLoop :=
  match e.linkCid b with
  | none => none
  | some cid =>
    let cidLenVI := VarintSlice (uint64OfInt (len cid))
    let dagSizeVI : List Nat :=
      if e.NonstandardLeanLinks then [] else VarintSlice b.SizeCumulativeDag
    let frameLen : Nat :=
      if e.NonstandardLeanLinks then
        uint64OfInt (wrapInt (1 + len cidLenVI + len cid))
      else
        uint64OfInt (wrapInt (1 + len cidLenVI + len cid + 3 + len dagSizeVI))
    let linkSection := st.linkSection.AddByte pbHdrF2LD
    let linkSection := linkSection.AddSlice (VarintSlice frameLen)
    let linkSection := linkSection.AddByte pbHdrF1LD
    let linkSection := linkSection.AddSlice cidLenVI
    let linkSection := linkSection.AddSlice cid
    let linkSection :=
      if !e.NonstandardLeanLinks then
        (((linkSection.AddByte pbHdrF2LD).AddByte 0).AddByte pbHdrF3VI).AddSlice dagSizeVI
      else linkSection
    let seekOffsets :=
      if !e.NonstandardLeanLinks then
        (st.seekOffsets.AddByte pbHdrF4VI).AddSlice (VarintSlice b.SizeCumulativePayload)
      else st.seekOffsets
    some
      { linkSection := linkSection
        seekOffsets := seekOffsets
        totalPayload := (st.totalPayload + b.SizeCumulativePayload) % 2 ^ 64
        subDagSize := (st.subDagSize + b.SizeCumulativeDag) % 2 ^ 64 }

/-- The loop variables before the first iteration (lines 62 to 73). -/
def encoder.linkInit (e : encoder) (blocks : List Header) : LinkLoop :=
  if e.NonstandardLeanLinks then
    { seekOffsets := ZcpString.empty
      linkSection := ZcpString.NewWithSegmentCap (wrapInt (5 * blocks.length))
      totalPayload := 0
      subDagSize := 0 }
  else
    { seekOffsets := ZcpString.NewWithSegmentCap (wrapInt (2 * blocks.length))
      linkSection := ZcpString.NewWithSegmentCap (wrapInt (9 * blocks.length))
      totalPayload := 0
      subDagSize := 0 }

/-- The loop `for i := range blocks` of `NewLink`. -/
def encoder.linkLoop (e : encoder) (blocks : List Header) : Option LinkLoop :=
  blocks.foldlM e.linkStep (e.linkInit blocks)

/-- The outer data field (lines 130 to 137): tag, length, and the file-metadata
message with type 2, the total payload and the seek offsets. -/
def encoder.dataField (_e : encoder) (st : LinkLoop) : ZcpString :=
  let payloadSizeVI := VarintSlice st.totalPayload
  let z := ZcpString.empty
  let z := z.AddByte pbHdrF1LD
  let z := z.AddSlice
    (VarintSlice (uint64OfInt (wrapInt (3 + len payloadSizeVI + st.seekOffsets.Size))))
  let z := z.AddByte pbHdrF1VI
  let z := z.AddByte 2
  let z := z.AddByte pbHdrF3VI
  let z := z.AddSlice payloadSizeVI
  z.AddZcp st.seekOffsets

/-- The arguments `NewLink` hands to the block factory (lines 123 to 149),
from the loop variables after the last iteration. -/
def encoder.linkArgs (e : encoder) (blocks : List Header) (st : LinkLoop) : MakerArgs :=
  let linkSectionSize := st.linkSection.Size
  let linkBlock :=
    if e.NonstandardLeanLinks then
      ZcpString.NewWithSegmentCap (wrapInt (5 * blocks.length + 6))
    else
      ZcpString.NewWithSegmentCap (wrapInt (9 * blocks.length + 2 * blocks.length + 6))
  let linkBlock := if e.CompatPb then linkBlock.AddZcp st.linkSection else linkBlock
  let linkBlock := linkBlock.AddZcp (e.dataField st)
  let linkBlock := if !e.CompatPb then linkBlock.AddZcp st.linkSection else linkBlock
  ⟨linkBlock, Codec.CodecPB, st.totalPayload, st.subDagSize, linkSectionSize⟩

/-- The method `NewLink`; `none` when slicing an identifier panics. -/
def encoder.NewLink (e : encoder) (origin : NodeOrigin) (blocks : List Header) (w : World) :
    Option (Header × World) :=
  match e.linkLoop blocks with
  | none => none
  | some st =>
    let (h, w) := e.callBlockMaker (e.linkArgs blocks st) w
    let w := e.NewLinkBlockCallback origin h none w
    some (h, w)

/-- The method `IpfsCompatibleNulLink`. -/
def encoder.IpfsCompatibleNulLink (e : encoder) (origin : NodeOrigin) (w : World) :
    Header × World :=
  let (h, w) := e.compatNulBlock w
  let w := e.NewLinkBlockCallback origin h none w
  (h, w)

/-- The method `LinkframeSize`, an `int`. -/
def encoder.LinkframeSize (e : encoder) (hdr : Header) : Int :=
  let size := len hdr.Cid
  let size := wrapInt (size + (1 + VarintWireSize (uint64OfInt size)))
  let size :=
    if !e.NonstandardLeanLinks then
      wrapInt (size + (3 + VarintWireSize hdr.SizeCumulativeDag))
    else size
  wrapInt (1 + VarintWireSize (uint64OfInt size) + size)

/-! ## Reference definitions the properties are stated with -/

/-- Bounds the Go types put on a header: an identifier is a slice the runtime
can allocate (shorter than `2^48` bytes), the two sizes are `uint64`. -/
def Header.inRange (b : Header) : Prop :=
  b.Cid.length < 2 ^ 48 ∧ b.SizeCumulativePayload < 2 ^ 64 ∧ b.SizeCumulativeDag < 2 ^ 64

instance (b : Header) : Decidable b.inRange := by
  unfold Header.inRange; infer_instance

/-- The condition under which `NewLink` drops the first two bytes of a child's
identifier. -/
def encoder.truncates (e : encoder) (b : Header) : Prop :=
  e.LegacyCIDv0Links = true ∧ b.IsCidInlined = false ∧
    b.SizeCumulativePayload ≠ b.SizeCumulativeDag

instance (e : encoder) (b : Header) : Decidable (e.truncates b) := by
  unfold encoder.truncates; infer_instance

/-- The identifier written for a child: without its first two bytes when the
child is truncated, unchanged otherwise. -/
def encoder.writtenCid (e : encoder) (b : Header) : List Nat :=
  if e.truncates b then b.Cid.drop 2 else b.Cid

/-- The body `B` of a child's link entry: the identifier field and, unless
links are lean, the empty name field and the dag-size field. -/
def encoder.linkBody (e : encoder) (b : Header) : List Nat :=
  [0x0a] ++ VarintSlice (e.writtenCid b).length ++ e.writtenCid b ++
    (if e.NonstandardLeanLinks then [] else [0x12, 0x00] ++ [0x18] ++ VarintSlice b.SizeCumulativeDag)

/-- The link entry `E` of a child: tag `0x12`, the length of the body, the
body. -/
def encoder.linkEntry (e : encoder) (b : Header) : List Nat :=
  [0x12] ++ VarintSlice (e.linkBody b).length ++ e.linkBody b

/-- The seek-offset entry of a child: nothing when links are lean, otherwise
tag `0x20` and the child's payload size. -/
def encoder.seekEntry (e : encoder) (b : Header) : List Nat :=
  if e.NonstandardLeanLinks then [] else [0x20] ++ VarintSlice b.SizeCumulativePayload

/-- The links section `L` of a link set: the link entries in child order. -/
def encoder.linksSection (e : encoder) (blocks : List Header) : List Nat :=
  (blocks.map e.linkEntry).flatten

/-- The sum of the children's payload sizes, as a `uint64`. -/
def totalPayloadOf (blocks : List Header) : Nat :=
  (blocks.map Header.SizeCumulativePayload).sum % 2 ^ 64

/-- The sum of the children's dag sizes, as a `uint64`. -/
def subDagSizeOf (blocks : List Header) : Nat :=
  (blocks.map Header.SizeCumulativeDag).sum % 2 ^ 64

/-- The file-metadata message `M` of a link set: type 2, the total payload,
one seek-offset entry per child. -/
def encoder.metaMessage (e : encoder) (blocks : List Header) : List Nat :=
  [0x08, 0x02, 0x18] ++ VarintSlice (totalPayloadOf blocks) ++ (blocks.map e.seekEntry).flatten

/-- The outer data field `D` of a link set: tag `0x0a`, the length of the
message, the message. -/
def encoder.dataSection (e : encoder) (blocks : List Header) : List Nat :=
  [0x0a] ++ VarintSlice (e.metaMessage blocks).length ++ e.metaMessage blocks

/-- The bytes of a decorated leaf of type `t` with declared size `n`: the
outer field 1 with its length, then type, content and size. -/
def decoratedLeafBytes (t n : Nat) (content : List Nat) : List Nat :=
  [0x0a] ++ VarintSlice (3 + 2 * (VarintSlice n).length + n + 1) ++ [0x08, t] ++ [0x12] ++
    VarintSlice n ++ content ++ [0x18] ++ VarintSlice n

/-! ## Reference protobuf parser -/

/-- One field of a decoded protobuf message: field number and value, by wire
type. -/
inductive PbField
  | varint (num : Nat) (val : Nat)
  | fixed64 (num : Nat) (val : List Nat)
  | bytes (num : Nat) (val : List Nat)
  | fixed32 (num : Nat) (val : List Nat)
  deriving DecidableEq

/-- Reference parser of the protobuf wire format: reads fields until the input
is used up; `none` on a truncated field, a field number 0 or a wire type other
than 0, 1, 2, 5.  Every field uses up at least one byte, so fuel equal to the
input length is never exhausted. -/
def parseFields : Nat → List Nat → Option (List PbField)
  | _, [] => some []
  | 0, _ :: _ => none
  | fuel + 1, b :: bs =>
    match decodeVarint (b :: bs) with
    | none => none
    | some (tag, r) =>
      if tag / 8 = 0 then none
      else if tag % 8 = 0 then
        match decodeVarint r with
        | none => none
        | some (v, r2) => (parseFields fuel r2).map (fun fs => PbField.varint (tag / 8) v :: fs)
      else if tag % 8 = 1 then
        if 8 ≤ r.length then
          (parseFields fuel (r.drop 8)).map (fun fs => PbField.fixed64 (tag / 8) (r.take 8) :: fs)
        else none
      else if tag % 8 = 2 then
        match decodeVarint r with
        | none => none
        | some (n, r2) =>
          if n ≤ r2.length then
            (parseFields fuel (r2.drop n)).map
              (fun fs => PbField.bytes (tag / 8) (r2.take n) :: fs)
          else none
      else if tag % 8 = 5 then
        if 4 ≤ r.length then
          (parseFields fuel (r.drop 4)).map (fun fs => PbField.fixed32 (tag / 8) (r.take 4) :: fs)
        else none
      else none

/-- Parse a whole message: succeeds only when all bytes are consumed. -/
def parseMessage (bs : List Nat) : Option (List PbField) := parseFields bs.length bs

/-! ## Sample collaborators -/

/-- A block factory for examples: the identifier is a fixed 4-byte header
followed by the first bytes of the content; the sizes are those of the call
plus the block's own length. -/
def sampleMaker (a : MakerArgs) : Header :=
  { Cid := [1, (if a.codecID = Codec.CodecRaw then 0x55 else 0x70), 0x12, 0x20] ++
      a.blockContent.take 4
    IsCidInlined := false
    SizeCumulativePayload := a.sizePayload
    SizeCumulativeDag := (a.sizeSubDag + a.blockContent.length) % 2 ^ 64 }

/-- An encoder over `sampleMaker` with the given flags and leaf type. -/
def sampleEnc (pb cidv0 lean : Bool) (t : Int) : encoder :=
  ⟨pb, cidv0, lean, t, sampleMaker⟩

/-- The world before any call. -/
def w0 : World := ⟨[], []⟩

/-- A raw leaf of 5 bytes: payload size and dag size agree. -/
def rawLeafA : Header := ⟨[1, 0x55, 0x12, 0x20, 7, 7], false, 5, 5⟩

/-- A raw leaf of 3 bytes. -/
def rawLeafB : Header := ⟨[1, 0x55, 0x12, 0x20, 9, 9], false, 3, 3⟩

/-- An interior node over 5 payload bytes whose subtree is encoded in 15
bytes. -/
def innerNode : Header := ⟨[1, 0x70, 0x12, 0x20, 8, 8], false, 5, 15⟩

/-- An origin marker for examples. -/
def origin0 : NodeOrigin := ⟨0, 0⟩

/-! ## Machine-integer lemmas -/

theorem wrapInt_of_range (x : Int) (h1 : -(2 ^ 63) ≤ x) (h2 : x < 2 ^ 63) : wrapInt x = x := by
  unfold wrapInt; omega

theorem uint64OfInt_wrapInt (x : Int) : uint64OfInt (wrapInt x) = uint64OfInt x := by
  unfold uint64OfInt wrapInt; omega

theorem uint64OfInt_natCast (n : Nat) (h : n < 2 ^ 64) : uint64OfInt (n : Int) = n := by
  unfold uint64OfInt; omega

theorem uint64OfInt_of_nonneg (x : Int) (h1 : 0 ≤ x) (h2 : x < 2 ^ 64) :
    uint64OfInt x = x.toNat := by
  unfold uint64OfInt; omega

/-! ## Varint lemmas -/

theorem appendVarint_fuel (f1 : Nat) : ∀ (f2 v : Nat), v ≤ f1 → v ≤ f2 →
    appendVarint f1 v = appendVarint f2 v := by
  induction f1 with
  | zero =>
    intro f2 v h1 _
    have hv : v = 0 := by omega
    subst hv
    cases f2 <;> simp [appendVarint]
  | succ f1 ih =>
    intro f2 v h1 h2
    cases f2 with
    | zero =>
      have hv : v = 0 := by omega
      subst hv
      simp [appendVarint]
    | succ f2 =>
      simp only [appendVarint]
      split
      · rw [ih f2 (v / 128) (by omega) (by omega)]
      · rfl

theorem VarintSlice_eq (v : Nat) :
    VarintSlice v = if v > 127 then (v % 128 + 128) :: VarintSlice (v / 128) else [v] := by
  unfold VarintSlice
  cases v with
  | zero => simp [appendVarint]
  | succ n =>
    simp only [appendVarint]
    split
    · rw [appendVarint_fuel n ((n + 1) / 128) ((n + 1) / 128) (by omega) (le_refl _)]
    · rfl

theorem VarintSlice_small (v : Nat) (h : v < 128) : VarintSlice v = [v] := by
  rw [VarintSlice_eq]; simp; omega

theorem appendVarint_length (f v : Nat) : (appendVarint f v).length = varintGroups f v := by
  induction f generalizing v with
  | zero => simp [appendVarint, varintGroups]
  | succ f ih =>
    simp only [appendVarint, varintGroups]
    by_cases h : v > 127
    · have h2 : ¬ v < 128 := by omega
      simp [h, h2, ih]; omega
    · have h2 : v < 128 := by omega
      simp [h, h2]

theorem VarintWireSize_eq_len (v : Nat) : VarintWireSize v = len (VarintSlice v) := by
  simp [VarintWireSize, len, VarintSlice, appendVarint_length]

theorem VarintSlice_length_pos (v : Nat) : 1 ≤ (VarintSlice v).length := by
  rw [VarintSlice_eq]; split <;> simp

theorem VarintSlice_length_le (k : Nat) : ∀ v : Nat, v < 128 ^ (k + 1) →
    (VarintSlice v).length ≤ k + 1 := by
  induction k with
  | zero =>
    intro v h
    rw [VarintSlice_small v (by simpa using h)]; simp
  | succ k ih =>
    intro v h
    rw [VarintSlice_eq]
    split
    · have : v / 128 < 128 ^ (k + 1) := by
        rw [Nat.div_lt_iff_lt_mul (by norm_num)]
        calc v < 128 ^ (k + 1 + 1) := h
          _ = 128 ^ (k + 1) * 128 := by ring
      have := ih (v / 128) this
      simp; omega
    · simp

theorem VarintSlice_length_le_ten (v : Nat) (h : v < 2 ^ 64) : (VarintSlice v).length ≤ 10 := by
  apply VarintSlice_length_le 9 v
  calc v < 2 ^ 64 := h
    _ ≤ 128 ^ (9 + 1) := by norm_num

theorem decodeVarint_VarintSlice (v : Nat) : ∀ rest : List Nat,
    decodeVarint (VarintSlice v ++ rest) = some (v, rest) := by
  induction v using Nat.strong_induction_on with
  | _ v ih =>
    intro rest
    rw [VarintSlice_eq]
    by_cases h : v > 127
    · have h1 : ¬ (v % 128 + 128 < 128) := by omega
      simp [h, decodeVarint, h1, ih (v / 128) (by omega) rest]
      omega
    · have h1 : v < 128 := by omega
      simp [h, decodeVarint, h1]

/-! ## Leaf encoding -/

theorem pbHdr_values :
    pbHdrF1VI = 8 ∧ pbHdrF3VI = 24 ∧ pbHdrF4VI = 32 ∧ pbHdrF1LD = 10 ∧ pbHdrF2LD = 18 := by
  decide

theorem NewLeaf_decorated (e : encoder) (ls : LeafSource) (w : World) (t n : Nat)
    (ht : e.UnixFsType = (t : Int)) (ht1 : t ≤ 127)
    (hn : ls.Size = (n : Int)) (hn0 : 0 < n) (hn1 : n < 2 ^ 63) :
    e.NewLeaf ls w =
      e.callBlockMaker ⟨decoratedLeafBytes t n ls.Content, Codec.CodecPB, n, 0, 0⟩ w := by
  have hraw : ¬ (e.UnixFsType = -1) := by omega
  have hsz : ¬ (ls.Size = 0) := by omega
  have hu : uint64OfInt ls.Size = n := by
    rw [hn]; exact uint64OfInt_natCast n (by omega)
  have hle := VarintSlice_length_le_ten n (by omega)
  have hlen : uint64OfInt (wrapInt (3 + 2 * len (VarintSlice n) + ls.Size + 1)) =
      3 + 2 * (VarintSlice n).length + n + 1 := by
    rw [uint64OfInt_wrapInt, hn]
    have : (3 + 2 * len (VarintSlice n) + (n : Int) + 1) =
        ((3 + 2 * (VarintSlice n).length + n + 1 : Nat) : Int) := by
      simp [len]
    rw [this]
    exact uint64OfInt_natCast _ (by omega)
  have hb : byteOfInt e.UnixFsType = t := by
    rw [ht]; unfold byteOfInt; omega
  obtain ⟨h1, h3, _, h1l, h2l⟩ := pbHdr_values
  simp only [encoder.NewLeaf, if_neg hraw, if_neg hsz, hu, hlen, hb, decoratedLeafBytes,
    ZcpString.NewWithSegmentCap, ZcpString.AddByte, ZcpString.AddSlice, ZcpString.AddZcp,
    h1, h3, h1l, h2l, List.nil_append, List.append_assoc, List.singleton_append,
    List.cons_append]

/-- C2: for a leaf source of declared size `n` with `0 < n < 2^63` and a
decoration type `t` with `0 ≤ t ≤ 127` (so not raw), `NewLeaf` calls the block
factory exactly once, with the bytes
`[0x0a] ++ varint(3 + 2*|varint(n)| + n + 1) ++ [0x08, t] ++ [0x12] ++ varint(n) ++ content ++ [0x18] ++ varint(n)`,
codec DAG-protobuf, payload size `n`, children dag size 0 and link-section
size 0, and returns the factory's header. -/
theorem C2_NewLeaf_decorated_bytes (e : encoder) (ls : LeafSource) (w : World) (t n : Nat)
    (ht : e.UnixFsType = (t : Int)) (ht1 : t ≤ 127)
    (hn : ls.Size = (n : Int)) (hn0 : 0 < n) (hn1 : n < 2 ^ 63) :
    e.NewLeaf ls w =
      (e.BlockMaker
        ⟨[0x0a] ++ VarintSlice (3 + 2 * (VarintSlice n).length + n + 1) ++ [0x08, t] ++ [0x12] ++
          VarintSlice n ++ ls.Content ++ [0x18] ++ VarintSlice n, Codec.CodecPB, n, 0, 0⟩,
       { made := w.made ++
          [⟨[0x0a] ++ VarintSlice (3 + 2 * (VarintSlice n).length + n + 1) ++ [0x08, t] ++ [0x12] ++
            VarintSlice n ++ ls.Content ++ [0x18] ++ VarintSlice n, Codec.CodecPB, n, 0, 0⟩],
         events := w.events }) := by
  rw [NewLeaf_decorated e ls w t n ht ht1 hn hn0 hn1]
  rfl

/-- C2, the scenario of the specification: content "hi" (size 2) with
decoration type 2 gives the bytes `0a 08 08 02 12 02 68 69 18 02`. -/
theorem C2_NewLeaf_decorated_bytes_witness :
    (2 : Nat) ≤ 127 ∧ 0 < (2 : Nat) ∧ (2 : Nat) < 2 ^ 63 ∧
    (sampleEnc false false false 2).NewLeaf ⟨[0x68, 0x69], 2⟩ w0 =
      (sampleMaker
        ⟨[0x0a, 0x08, 0x08, 0x02, 0x12, 0x02, 0x68, 0x69, 0x18, 0x02], Codec.CodecPB, 2, 0, 0⟩,
       { made := [⟨[0x0a, 0x08, 0x08, 0x02, 0x12, 0x02, 0x68, 0x69, 0x18, 0x02],
            Codec.CodecPB, 2, 0, 0⟩],
         events := [] }) :=
  ⟨by decide, by decide, by decide,
    (C2_NewLeaf_decorated_bytes (sampleEnc false false false 2) ⟨[0x68, 0x69], 2⟩ w0 2 2
      rfl (by decide) rfl (by decide) (by decide)).trans (by decide)⟩

/-- C4, as stated, fails: with raw leaves a leaf source of declared size 0 (and
empty content) produces a block with no bytes at all, codec raw, not the six
bytes `0a 04 08 02 18 00`. -/
theorem C4_raw_empty_leaf_counterexample :
    (sampleEnc false false false (-1)).NewLeaf ⟨[], 0⟩ w0 =
      (sampleMaker ⟨[], Codec.CodecRaw, 0, 0, 0⟩,
       { made := [⟨[], Codec.CodecRaw, 0, 0, 0⟩], events := [] }) ∧
    ¬ (∀ (e : encoder) (ls : LeafSource) (w : World), ls.Size = 0 →
        ∃ a, (e.NewLeaf ls w).2.made = w.made ++ [a] ∧
          a.blockContent = [0x0a, 0x04, 0x08, 0x02, 0x18, 0x00]) := by
  refine ⟨by decide, ?_⟩
  intro h
  obtain ⟨a, h1, h2⟩ := h (sampleEnc false false false (-1)) ⟨[], 0⟩ w0 rfl
  have h3 : (sampleEnc false false false (-1)).NewLeaf ⟨[], 0⟩ w0 =
      (sampleMaker ⟨[], Codec.CodecRaw, 0, 0, 0⟩,
       { made := [⟨[], Codec.CodecRaw, 0, 0, 0⟩], events := [] }) := by decide
  rw [h3] at h1
  simp [w0] at h1
  rw [← h1] at h2
  simp at h2

/-- C4, amended: for every configuration whose leaf decoration is not raw
(`UnixFsType ≠ -1`) and every leaf source with declared size 0, whatever its
content, `NewLeaf` calls the block factory exactly once, with exactly the six
bytes `0a 04 08 02 18 00` (codec DAG-protobuf, all sizes 0). -/
theorem C4_NewLeaf_empty_nonraw (e : encoder) (ls : LeafSource) (w : World)
    (hraw : e.UnixFsType ≠ -1) (hsz : ls.Size = 0) :
    e.NewLeaf ls w =
      (e.BlockMaker ⟨[0x0a, 0x04, 0x08, 0x02, 0x18, 0x00], Codec.CodecPB, 0, 0, 0⟩,
       { made := w.made ++ [⟨[0x0a, 0x04, 0x08, 0x02, 0x18, 0x00], Codec.CodecPB, 0, 0, 0⟩],
         events := w.events }) := by
  simp [encoder.NewLeaf, hraw, hsz, encoder.compatNulBlock, encoder.callBlockMaker,
    ZcpString.NewFromSlice]

/-- C4, amended, at a concrete input: leaf type 0, declared size 0 and
non-empty content. -/
theorem C4_NewLeaf_empty_nonraw_witness :
    (0 : Int) ≠ -1 ∧ (0 : Int) = 0 ∧
    (sampleEnc true true true 0).NewLeaf ⟨[0x68, 0x69], 0⟩ w0 =
      (sampleMaker ⟨[0x0a, 0x04, 0x08, 0x02, 0x18, 0x00], Codec.CodecPB, 0, 0, 0⟩,
       { made := [⟨[0x0a, 0x04, 0x08, 0x02, 0x18, 0x00], Codec.CodecPB, 0, 0, 0⟩],
         events := [] }) :=
  ⟨by decide, rfl,
    C4_NewLeaf_empty_nonraw (sampleEnc true true true 0) ⟨[0x68, 0x69], 0⟩ w0 (by decide) rfl⟩

/-- C5: with raw leaf decoration (`UnixFsType = -1`) and a declared size `n`
(a non-negative `int`, zero included), `NewLeaf` calls the block factory
exactly once, with the source content bytes unchanged, codec raw, payload size
`n`, children dag size 0 and link-section size 0. -/
theorem C5_NewLeaf_raw (e : encoder) (ls : LeafSource) (w : World) (n : Nat)
    (hraw : e.UnixFsType = -1) (hn : ls.Size = (n : Int)) (hn1 : n < 2 ^ 63) :
    e.NewLeaf ls w =
      (e.BlockMaker ⟨ls.Content, Codec.CodecRaw, n, 0, 0⟩,
       { made := w.made ++ [⟨ls.Content, Codec.CodecRaw, n, 0, 0⟩], events := w.events }) := by
  have hu : uint64OfInt ls.Size = n := by
    rw [hn]; exact uint64OfInt_natCast n (by omega)
  simp [encoder.NewLeaf, hraw, hu, encoder.callBlockMaker]

/-- C5 at concrete inputs: a raw leaf of three bytes, and a raw leaf of
declared size 0. -/
theorem C5_NewLeaf_raw_witness :
    ((3 : Nat) < 2 ^ 63 ∧
      (sampleEnc false false false (-1)).NewLeaf ⟨[1, 2, 3], 3⟩ w0 =
        (sampleMaker ⟨[1, 2, 3], Codec.CodecRaw, 3, 0, 0⟩,
         { made := [⟨[1, 2, 3], Codec.CodecRaw, 3, 0, 0⟩], events := [] })) ∧
    ((0 : Nat) < 2 ^ 63 ∧
      (sampleEnc false false false (-1)).NewLeaf ⟨[], 0⟩ w0 =
        (sampleMaker ⟨[], Codec.CodecRaw, 0, 0, 0⟩,
         { made := [⟨[], Codec.CodecRaw, 0, 0, 0⟩], events := [] })) :=
  ⟨⟨by decide,
      C5_NewLeaf_raw (sampleEnc false false false (-1)) ⟨[1, 2, 3], 3⟩ w0 3 rfl rfl (by decide)⟩,
    ⟨by decide,
      C5_NewLeaf_raw (sampleEnc false false false (-1)) ⟨[], 0⟩ w0 0 rfl rfl (by decide)⟩⟩

/-! ## Decoding a leaf with the reference parser -/

theorem parseFields_nil (f : Nat) : parseFields f [] = some [] := by
  cases f <;> rfl

theorem parseFields_varint_field (f tag v : Nat) (rest : List Nat)
    (h1 : tag < 128) (h2 : tag / 8 ≠ 0) (h3 : tag % 8 = 0) :
    parseFields (f + 1) (tag :: (VarintSlice v ++ rest)) =
      (parseFields f rest).map (fun fs => PbField.varint (tag / 8) v :: fs) := by
  simp [parseFields, decodeVarint, h1, h2, h3, decodeVarint_VarintSlice]

theorem parseFields_bytes_field (f tag : Nat) (body rest : List Nat)
    (h1 : tag < 128) (h2 : tag / 8 ≠ 0) (h3 : tag % 8 = 2) :
    parseFields (f + 1) (tag :: (VarintSlice body.length ++ (body ++ rest))) =
      (parseFields f rest).map (fun fs => PbField.bytes (tag / 8) body :: fs) := by
  simp [parseFields, decodeVarint, h1, h2, h3, decodeVarint_VarintSlice]

/-- The file-metadata message of a decorated leaf. -/
theorem decoratedLeafBytes_split (t n : Nat) (content : List Nat) (hc : content.length = n) :
    decoratedLeafBytes t n content =
      0x0a :: (VarintSlice ([0x08, t] ++ [0x12] ++ VarintSlice n ++ content ++ [0x18] ++
          VarintSlice n).length ++
        (([0x08, t] ++ [0x12] ++ VarintSlice n ++ content ++ [0x18] ++ VarintSlice n) ++ [])) := by
  have : ([0x08, t] ++ [0x12] ++ VarintSlice n ++ content ++ [0x18] ++ VarintSlice n).length =
      3 + 2 * (VarintSlice n).length + n + 1 := by
    simp [hc]; omega
  rw [this]
  simp [decoratedLeafBytes]

/-- C3: for a leaf source whose content length equals its declared size `n`,
`0 < n < 2^63`, encoded by `NewLeaf` with decoration type 2, the bytes handed
to the block factory are tag `0x0a`, the varint of the payload length and the
payload; the reference parser reads them completely as the single
length-delimited field 1 holding that payload, and reads the payload completely
as field 1 varint = 2, field 2 bytes = content, field 3 varint = `n`. -/
theorem C3_NewLeaf_parses (e : encoder) (ls : LeafSource) (w : World) (n : Nat)
    (ht : e.UnixFsType = 2) (hn : ls.Size = (n : Int)) (hn0 : 0 < n) (hn1 : n < 2 ^ 63)
    (hc : ls.Content.length = n) :
    ∃ (a : MakerArgs) (payload : List Nat),
      e.NewLeaf ls w = (e.BlockMaker a, { made := w.made ++ [a], events := w.events }) ∧
      a.blockContent = [0x0a] ++ VarintSlice payload.length ++ payload ∧
      payload.length = 3 + 2 * (VarintSlice n).length + n + 1 ∧
      parseMessage a.blockContent = some [PbField.bytes 1 payload] ∧
      parseMessage payload =
        some [PbField.varint 1 2, PbField.bytes 2 ls.Content, PbField.varint 3 n] := by
  refine ⟨⟨decoratedLeafBytes 2 n ls.Content, Codec.CodecPB, n, 0, 0⟩,
    [0x08, 2] ++ [0x12] ++ VarintSlice n ++ ls.Content ++ [0x18] ++ VarintSlice n, ?_, ?_, ?_, ?_, ?_⟩
  · rw [NewLeaf_decorated e ls w 2 n (by simpa using ht) (by decide) hn hn0 hn1]
    rfl
  · rw [decoratedLeafBytes_split 2 n ls.Content hc]; simp
  · simp [hc]; omega
  · show parseMessage (decoratedLeafBytes 2 n ls.Content) = _
    unfold parseMessage
    rw [decoratedLeafBytes_split 2 n ls.Content hc, List.length_cons,
      parseFields_bytes_field _ 10 _ [] (by decide) (by decide) (by decide), parseFields_nil]
    rfl
  · unfold parseMessage
    have hpos := VarintSlice_length_pos n
    obtain ⟨f, hf⟩ : ∃ f, ([0x08, 2] ++ [0x12] ++ VarintSlice n ++ ls.Content ++ [0x18] ++
        VarintSlice n).length = f + 3 := by
      refine ⟨2 * (VarintSlice n).length + n - 2 + 3, ?_⟩
      simp [hc]; omega
    rw [hf]
    have e1 : [0x08, 2] ++ [0x12] ++ VarintSlice n ++ ls.Content ++ [0x18] ++ VarintSlice n =
        8 :: (VarintSlice 2 ++ (18 :: (VarintSlice ls.Content.length ++
          (ls.Content ++ (24 :: (VarintSlice n ++ [])))))) := by
      rw [VarintSlice_small 2 (by decide), hc]; simp
    rw [e1, parseFields_varint_field _ 8 2 _ (by decide) (by decide) (by decide),
      parseFields_bytes_field _ 18 _ _ (by decide) (by decide) (by decide),
      parseFields_varint_field _ 24 n _ (by decide) (by decide) (by decide), parseFields_nil]
    rfl

/-- C3 at a concrete input: the leaf "hi" with decoration type 2. -/
theorem C3_NewLeaf_parses_witness :
    (0 : Nat) < 2 ∧ (2 : Nat) < 2 ^ 63 ∧
    ∃ (a : MakerArgs) (payload : List Nat),
      (sampleEnc false false false 2).NewLeaf ⟨[0x68, 0x69], 2⟩ w0 =
        (sampleMaker a, { made := w0.made ++ [a], events := w0.events }) ∧
      a.blockContent = [0x0a] ++ VarintSlice payload.length ++ payload ∧
      payload.length = 3 + 2 * (VarintSlice 2).length + 2 + 1 ∧
      parseMessage a.blockContent = some [PbField.bytes 1 payload] ∧
      parseMessage payload =
        some [PbField.varint 1 2, PbField.bytes 2 [0x68, 0x69], PbField.varint 3 2] :=
  ⟨by decide, by decide,
    C3_NewLeaf_parses (sampleEnc false false false 2) ⟨[0x68, 0x69], 2⟩ w0 2 rfl rfl
      (by decide) (by decide) rfl⟩

/-! ## The loop of `NewLink` -/

theorem truncates_iff (e : encoder) (b : Header) :
    (e.LegacyCIDv0Links && !b.IsCidInlined &&
      (b.SizeCumulativePayload != b.SizeCumulativeDag)) = true ↔ e.truncates b := by
  simp [encoder.truncates, and_assoc]

theorem linkCid_eq (e : encoder) (b : Header) (hc : 2 ≤ b.Cid.length) :
    e.linkCid b = some (e.writtenCid b) := by
  unfold encoder.linkCid encoder.writtenCid
  by_cases h : e.truncates b
  · simp [(truncates_iff e b).2 h, h, sliceFrom, hc]
  · have h2 : ¬ ((e.LegacyCIDv0Links && !b.IsCidInlined &&
        (b.SizeCumulativePayload != b.SizeCumulativeDag)) = true) :=
      fun hh => h ((truncates_iff e b).1 hh)
    simp [h2, h]

/-- An iteration, once the identifier to write is known. -/
theorem linkStep_of_cid (e : encoder) (st : LinkLoop) (b : Header) (cid : List Nat)
    (h : e.linkCid b = some cid) :
    e.linkStep st b = some
      { linkSection :=
          if e.NonstandardLeanLinks then
            st.linkSection ++ ([pbHdrF2LD] ++ (VarintSlice (uint64OfInt (wrapInt
              (1 + len (VarintSlice (uint64OfInt (len cid))) + len cid))) ++
              ([pbHdrF1LD] ++ (VarintSlice (uint64OfInt (len cid)) ++ cid))))
          else
            st.linkSection ++ ([pbHdrF2LD] ++ (VarintSlice (uint64OfInt (wrapInt
              (1 + len (VarintSlice (uint64OfInt (len cid))) + len cid + 3 +
                len (VarintSlice b.SizeCumulativeDag)))) ++
              ([pbHdrF1LD] ++ (VarintSlice (uint64OfInt (len cid)) ++ (cid ++
              ([pbHdrF2LD] ++ ([0] ++ ([pbHdrF3VI] ++ VarintSlice b.SizeCumulativeDag))))))))
        seekOffsets :=
          if e.NonstandardLeanLinks then st.seekOffsets
          else st.seekOffsets ++ ([pbHdrF4VI] ++ VarintSlice b.SizeCumulativePayload)
        totalPayload := (st.totalPayload + b.SizeCumulativePayload) % 2 ^ 64
        subDagSize := (st.subDagSize + b.SizeCumulativeDag) % 2 ^ 64 } := by
  unfold encoder.linkStep
  rw [h]
  cases e.NonstandardLeanLinks <;>
    simp only [ZcpString.AddByte, ZcpString.AddSlice, List.append_assoc, Bool.not_false,
      Bool.not_true, if_true, Bool.false_eq_true, if_false]

theorem writtenCid_length_le (e : encoder) (b : Header) :
    (e.writtenCid b).length ≤ b.Cid.length := by
  unfold encoder.writtenCid
  split <;> simp

theorem linkInit_eq (e : encoder) (blocks : List Header) :
    e.linkInit blocks = ⟨[], [], 0, 0⟩ := by
  unfold encoder.linkInit
  split <;> rfl

theorem frameLen_eq (a c d : Nat) (ha : a ≤ 10) (hc : c < 2 ^ 48) (hd : d ≤ 10) :
    uint64OfInt (wrapInt (1 + (a : Int) + (c : Int) + 3 + (d : Int))) = 1 + a + c + 3 + d ∧
    uint64OfInt (wrapInt (1 + (a : Int) + (c : Int))) = 1 + a + c := by
  unfold uint64OfInt wrapInt
  constructor <;> omega

theorem linkBody_length (e : encoder) (b : Header) :
    (e.linkBody b).length =
      if e.NonstandardLeanLinks then
        1 + (VarintSlice (e.writtenCid b).length).length + (e.writtenCid b).length
      else
        1 + (VarintSlice (e.writtenCid b).length).length + (e.writtenCid b).length + 3 +
          (VarintSlice b.SizeCumulativeDag).length := by
  unfold encoder.linkBody
  cases e.NonstandardLeanLinks
  · simp only [Bool.false_eq_true, if_false, List.length_append, List.length_cons,
      List.length_nil]
    omega
  · simp only [if_true, List.length_append, List.length_cons, List.length_nil]
    omega

/-- With the sizes in range, an iteration appends the child's link entry and
seek entry. -/
theorem linkStep_eq (e : encoder) (st : LinkLoop) (b : Header) (hc : 2 ≤ b.Cid.length)
    (hr : b.inRange) :
    e.linkStep st b = some
      ⟨st.linkSection ++ e.linkEntry b, st.seekOffsets ++ e.seekEntry b,
        (st.totalPayload + b.SizeCumulativePayload) % 2 ^ 64,
        (st.subDagSize + b.SizeCumulativeDag) % 2 ^ 64⟩ := by
  obtain ⟨hr1, _, hr3⟩ := hr
  have hw := writtenCid_length_le e b
  have hu : uint64OfInt (len (e.writtenCid b)) = (e.writtenCid b).length :=
    uint64OfInt_natCast _ (by omega)
  have ha := VarintSlice_length_le_ten (e.writtenCid b).length (by omega)
  have hd := VarintSlice_length_le_ten b.SizeCumulativeDag hr3
  have hf := frameLen_eq (VarintSlice (e.writtenCid b).length).length (e.writtenCid b).length
    (VarintSlice b.SizeCumulativeDag).length ha (by omega) hd
  have hb := linkBody_length e b
  obtain ⟨_, h3, h4, h1l, h2l⟩ := pbHdr_values
  rw [linkStep_of_cid e st b _ (linkCid_eq e b hc), hu]
  unfold encoder.linkEntry encoder.seekEntry
  rw [hb]
  unfold encoder.linkBody len
  rw [hf.1, hf.2, h3, h4, h1l, h2l]
  cases e.NonstandardLeanLinks
  · simp only [Bool.false_eq_true, if_false, List.append_assoc]
    rfl
  · simp only [if_true, List.append_assoc, List.append_nil]

theorem linkStep_shape (e : encoder) (b : Header) (hc : 2 ≤ b.Cid.length) :
    ∃ frame seek : List Nat, ∀ st : LinkLoop,
      e.linkStep st b = some
        ⟨st.linkSection ++ frame, st.seekOffsets ++ seek,
          (st.totalPayload + b.SizeCumulativePayload) % 2 ^ 64,
          (st.subDagSize + b.SizeCumulativeDag) % 2 ^ 64⟩ := by
  cases hl : e.NonstandardLeanLinks
  · apply Exists.intro
    apply Exists.intro
    intro st
    rw [linkStep_of_cid e st b _ (linkCid_eq e b hc), hl]
    simp only [Bool.false_eq_true, if_false]
    rfl
  · apply Exists.intro
    refine ⟨[], fun st => ?_⟩
    rw [linkStep_of_cid e st b _ (linkCid_eq e b hc), hl]
    simp only [if_true, List.append_nil]
    rfl

theorem foldlM_linkStep_shape (e : encoder) (blocks : List Header)
    (hc : ∀ b ∈ blocks, 2 ≤ b.Cid.length) :
    ∃ L S : List Nat, ∀ st : LinkLoop, st.totalPayload < 2 ^ 64 → st.subDagSize < 2 ^ 64 →
      blocks.foldlM e.linkStep st = some
        ⟨st.linkSection ++ L, st.seekOffsets ++ S,
          (st.totalPayload + (blocks.map Header.SizeCumulativePayload).sum) % 2 ^ 64,
          (st.subDagSize + (blocks.map Header.SizeCumulativeDag).sum) % 2 ^ 64⟩ := by
  induction blocks with
  | nil =>
    refine ⟨[], [], fun st h1 h2 => ?_⟩
    have e1 : (st.totalPayload + 0) % 2 ^ 64 = st.totalPayload := by omega
    have e2 : (st.subDagSize + 0) % 2 ^ 64 = st.subDagSize := by omega
    simp only [List.foldlM_nil, List.map_nil, List.sum_nil, List.append_nil, e1, e2]
    rfl
  | cons b bs ih =>
    obtain ⟨L, S, h⟩ := ih (fun x hx => hc x (List.mem_cons_of_mem _ hx))
    obtain ⟨f, s, hs⟩ := linkStep_shape e b (hc b (List.mem_cons_self _ _))
    refine ⟨f ++ L, s ++ S, fun st _ _ => ?_⟩
    rw [List.foldlM_cons, hs st]
    simp only [Option.bind_eq_bind, Option.some_bind]
    rw [h _ (by simp only; omega) (by simp only; omega)]
    simp only [List.append_assoc, List.map_cons, List.sum_cons]
    congr 2
    · omega
    · omega

theorem foldlM_linkStep_eq (e : encoder) (blocks : List Header)
    (hc : ∀ b ∈ blocks, 2 ≤ b.Cid.length) (hr : ∀ b ∈ blocks, b.inRange) :
    ∀ st : LinkLoop, st.totalPayload < 2 ^ 64 → st.subDagSize < 2 ^ 64 →
      blocks.foldlM e.linkStep st = some
        ⟨st.linkSection ++ e.linksSection blocks,
          st.seekOffsets ++ (blocks.map e.seekEntry).flatten,
          (st.totalPayload + (blocks.map Header.SizeCumulativePayload).sum) % 2 ^ 64,
          (st.subDagSize + (blocks.map Header.SizeCumulativeDag).sum) % 2 ^ 64⟩ := by
  induction blocks with
  | nil =>
    intro st h1 h2
    have e1 : (st.totalPayload + 0) % 2 ^ 64 = st.totalPayload := by omega
    have e2 : (st.subDagSize + 0) % 2 ^ 64 = st.subDagSize := by omega
    simp only [List.foldlM_nil, List.map_nil, List.sum_nil, List.append_nil, e1, e2,
      encoder.linksSection, List.flatten_nil]
    rfl
  | cons b bs ih =>
    intro st _ _
    have ih2 := ih (fun x hx => hc x (List.mem_cons_of_mem _ hx))
      (fun x hx => hr x (List.mem_cons_of_mem _ hx))
    rw [List.foldlM_cons, linkStep_eq e st b (hc b (List.mem_cons_self _ _))
      (hr b (List.mem_cons_self _ _))]
    simp only [Option.bind_eq_bind, Option.some_bind]
    rw [ih2 _ (by simp only; omega) (by simp only; omega)]
    simp only [encoder.linksSection, List.append_assoc, List.map_cons, List.sum_cons,
      List.flatten_cons]
    congr 2
    · omega
    · omega


/-! ## The block `NewLink` builds -/

theorem linkLoop_shape (e : encoder) (blocks : List Header)
    (hc : ∀ b ∈ blocks, 2 ≤ b.Cid.length) :
    ∃ L S : List Nat,
      e.linkLoop blocks = some ⟨L, S, totalPayloadOf blocks, subDagSizeOf blocks⟩ := by
  obtain ⟨L, S, h⟩ := foldlM_linkStep_shape e blocks hc
  refine ⟨L, S, ?_⟩
  unfold encoder.linkLoop
  rw [linkInit_eq, h _ (by simp only; omega) (by simp only; omega)]
  simp only [List.nil_append, Nat.zero_add, totalPayloadOf, subDagSizeOf]

theorem linkLoop_eq (e : encoder) (blocks : List Header)
    (hc : ∀ b ∈ blocks, 2 ≤ b.Cid.length) (hr : ∀ b ∈ blocks, b.inRange) :
    e.linkLoop blocks = some
      ⟨e.linksSection blocks, (blocks.map e.seekEntry).flatten,
        totalPayloadOf blocks, subDagSizeOf blocks⟩ := by
  unfold encoder.linkLoop
  rw [linkInit_eq, foldlM_linkStep_eq e blocks hc hr _ (by simp only; omega) (by simp only; omega)]
  simp only [List.nil_append, Nat.zero_add, totalPayloadOf, subDagSizeOf]

theorem linkArgs_eq (e : encoder) (blocks : List Header) (st : LinkLoop) :
    e.linkArgs blocks st =
      ⟨if e.CompatPb then st.linkSection ++ e.dataField st else e.dataField st ++ st.linkSection,
        Codec.CodecPB, st.totalPayload, st.subDagSize, (st.linkSection.length : Int)⟩ := by
  unfold encoder.linkArgs
  simp only [ZcpString.NewWithSegmentCap, ZcpString.AddZcp, ZcpString.Size, ite_self,
    List.nil_append]
  cases e.CompatPb
  · simp only [Bool.false_eq_true, if_false, Bool.not_false, if_true, List.nil_append]
  · simp only [if_true, Bool.not_true, Bool.false_eq_true, if_false, List.nil_append]

theorem NewLink_of_loop (e : encoder) (origin : NodeOrigin) (blocks : List Header) (w : World)
    (st : LinkLoop) (h : e.linkLoop blocks = some st) :
    e.NewLink origin blocks w =
      some (e.BlockMaker (e.linkArgs blocks st),
        { made := w.made ++ [e.linkArgs blocks st],
          events := w.events ++ [⟨origin, e.BlockMaker (e.linkArgs blocks st), none⟩] }) := by
  unfold encoder.NewLink
  rw [h]
  rfl

theorem seekEntries_length_le (e : encoder) (blocks : List Header)
    (hr : ∀ b ∈ blocks, b.inRange) :
    ((blocks.map e.seekEntry).flatten).length ≤ 11 * blocks.length := by
  induction blocks with
  | nil => simp
  | cons b bs ih =>
    have h1 := ih (fun x hx => hr x (List.mem_cons_of_mem _ hx))
    have h2 := VarintSlice_length_le_ten b.SizeCumulativePayload
      (hr b (List.mem_cons_self _ _)).2.1
    have h3 : (e.seekEntry b).length ≤ 11 := by
      unfold encoder.seekEntry
      split
      · simp
      · simp only [List.length_append, List.length_cons, List.length_nil]; omega
    simp only [List.map_cons, List.flatten_cons, List.length_append, List.length_cons]
    omega

theorem totalPayloadOf_lt (blocks : List Header) : totalPayloadOf blocks < 2 ^ 64 := by
  unfold totalPayloadOf; omega

theorem metaMessage_length (e : encoder) (blocks : List Header) :
    (e.metaMessage blocks).length =
      3 + (VarintSlice (totalPayloadOf blocks)).length +
        ((blocks.map e.seekEntry).flatten).length := by
  unfold encoder.metaMessage
  simp only [List.length_append, List.length_cons, List.length_nil]

theorem dataField_eq (e : encoder) (blocks : List Header) (L : List Nat) (sd : Nat)
    (hr : ∀ b ∈ blocks, b.inRange) (hk : blocks.length < 2 ^ 48) :
    e.dataField ⟨L, (blocks.map e.seekEntry).flatten, totalPayloadOf blocks, sd⟩ =
      e.dataSection blocks := by
  have h1 := seekEntries_length_le e blocks hr
  have h2 := VarintSlice_length_le_ten _ (totalPayloadOf_lt blocks)
  have h3 : uint64OfInt (wrapInt (3 + len (VarintSlice (totalPayloadOf blocks)) +
      ZcpString.Size ((blocks.map e.seekEntry).flatten))) =
      3 + (VarintSlice (totalPayloadOf blocks)).length +
        ((blocks.map e.seekEntry).flatten).length := by
    unfold uint64OfInt wrapInt len ZcpString.Size
    omega
  obtain ⟨h1v, h3v, _, h1l, _⟩ := pbHdr_values
  unfold encoder.dataField encoder.dataSection
  simp only [h3, metaMessage_length, h1v, h3v, h1l]
  unfold encoder.metaMessage
  simp only [ZcpString.empty, ZcpString.AddByte, ZcpString.AddSlice, ZcpString.AddZcp,
    List.nil_append, List.append_assoc, List.singleton_append, List.cons_append]

/-- The call `NewLink` makes and the event it logs, for children in range. -/
theorem NewLink_eq (e : encoder) (origin : NodeOrigin) (blocks : List Header) (w : World)
    (hc : ∀ b ∈ blocks, 2 ≤ b.Cid.length) (hr : ∀ b ∈ blocks, b.inRange)
    (hk : blocks.length < 2 ^ 48) (a : MakerArgs)
    (ha : a = ⟨if e.CompatPb then e.linksSection blocks ++ e.dataSection blocks
                else e.dataSection blocks ++ e.linksSection blocks,
              Codec.CodecPB, totalPayloadOf blocks, subDagSizeOf blocks,
              ((e.linksSection blocks).length : Int)⟩) :
    e.NewLink origin blocks w =
      some (e.BlockMaker a,
        { made := w.made ++ [a], events := w.events ++ [⟨origin, e.BlockMaker a, none⟩] }) := by
  rw [NewLink_of_loop e origin blocks w _ (linkLoop_eq e blocks hc hr), linkArgs_eq,
    dataField_eq e blocks _ _ hr hk, ha]


/-! ## Properties of `NewLink` -/

/-- C6: for a link set whose identifiers have at least two bytes, `NewLink`
calls the block factory exactly once, with codec DAG-protobuf, a payload size
equal to the sum of the children's payload sizes and a children-dag-size equal
to the sum of the children's dag sizes, both in `uint64` arithmetic (modulo
`2^64`), hence the exact sums when these are below `2^64`; nothing else is
added to the dag sum. -/
theorem C6_NewLink_sizes (e : encoder) (origin : NodeOrigin) (blocks : List Header) (w : World)
    (hc : ∀ b ∈ blocks, 2 ≤ b.Cid.length) :
    ∃ a : MakerArgs,
      e.NewLink origin blocks w =
        some (e.BlockMaker a,
          { made := w.made ++ [a], events := w.events ++ [⟨origin, e.BlockMaker a, none⟩] }) ∧
      a.codecID = Codec.CodecPB ∧
      a.sizePayload = (blocks.map Header.SizeCumulativePayload).sum % 2 ^ 64 ∧
      a.sizeSubDag = (blocks.map Header.SizeCumulativeDag).sum % 2 ^ 64 ∧
      ((blocks.map Header.SizeCumulativePayload).sum < 2 ^ 64 →
        a.sizePayload = (blocks.map Header.SizeCumulativePayload).sum) ∧
      ((blocks.map Header.SizeCumulativeDag).sum < 2 ^ 64 →
        a.sizeSubDag = (blocks.map Header.SizeCumulativeDag).sum) := by
  obtain ⟨L, S, h⟩ := linkLoop_shape e blocks hc
  refine ⟨e.linkArgs blocks ⟨L, S, totalPayloadOf blocks, subDagSizeOf blocks⟩,
    NewLink_of_loop e origin blocks w _ h, ?_, ?_, ?_, ?_, ?_⟩
  · rw [linkArgs_eq]
  · rw [linkArgs_eq]; rfl
  · rw [linkArgs_eq]; rfl
  · intro hlt
    rw [linkArgs_eq]
    exact Nat.mod_eq_of_lt hlt
  · intro hlt
    rw [linkArgs_eq]
    exact Nat.mod_eq_of_lt hlt

/-- C6 at a concrete input: a raw leaf (5, 5) and an interior node (5, 15)
give payload 10 and children dag size 20. -/
theorem C6_NewLink_sizes_witness :
    (∀ b ∈ [rawLeafA, innerNode], 2 ≤ b.Cid.length) ∧
    ∃ a : MakerArgs,
      (sampleEnc false true false 2).NewLink origin0 [rawLeafA, innerNode] w0 =
        some (sampleMaker a,
          { made := w0.made ++ [a], events := w0.events ++ [⟨origin0, sampleMaker a, none⟩] }) ∧
      a.codecID = Codec.CodecPB ∧
      a.sizePayload = ([rawLeafA, innerNode].map Header.SizeCumulativePayload).sum % 2 ^ 64 ∧
      a.sizeSubDag = ([rawLeafA, innerNode].map Header.SizeCumulativeDag).sum % 2 ^ 64 ∧
      (([rawLeafA, innerNode].map Header.SizeCumulativePayload).sum < 2 ^ 64 →
        a.sizePayload = ([rawLeafA, innerNode].map Header.SizeCumulativePayload).sum) ∧
      (([rawLeafA, innerNode].map Header.SizeCumulativeDag).sum < 2 ^ 64 →
        a.sizeSubDag = ([rawLeafA, innerNode].map Header.SizeCumulativeDag).sum) :=
  ⟨by decide,
    C6_NewLink_sizes (sampleEnc false true false 2) origin0 [rawLeafA, innerNode] w0 (by decide)⟩

theorem drop_two_ne (l : List Nat) (h : 2 ≤ l.length) : l.drop 2 ≠ l := by
  intro hh
  have := congrArg List.length hh
  simp only [List.length_drop] at this
  omega

theorem writtenCid_iff (e : encoder) (b : Header) (hc : 2 ≤ b.Cid.length) :
    (e.writtenCid b = b.Cid.drop 2 ↔ e.truncates b) ∧
    (e.writtenCid b = b.Cid ↔ ¬ e.truncates b) := by
  unfold encoder.writtenCid
  by_cases h : e.truncates b
  · simp only [h, if_true, true_iff, not_true_eq_false, iff_false]
    exact ⟨trivial, drop_two_ne _ hc⟩
  · simp only [h, if_false, iff_false, not_false_eq_true, iff_true]
    exact ⟨fun hh => drop_two_ne _ hc hh.symm, trivial⟩

/-- C7: for a link set of fewer than `2^48` children whose identifiers have at
least 2 (and fewer than `2^48`) bytes and whose sizes are `uint64`: in the
block `NewLink` builds, the links section is the sequence of the
children's link entries, and the identifier written in a child's entry (after
tag `0x12`, the entry length, tag `0x0a` and the identifier length) is the
child's identifier without its first 2 bytes if and only if `LegacyCIDv0Links`
is set, the identifier is not inlined and the payload size differs from the dag
size; it is the full identifier if and only if that condition fails. -/
theorem C7_NewLink_written_identifier (e : encoder) (origin : NodeOrigin)
    (blocks : List Header) (w : World)
    (hc : ∀ b ∈ blocks, 2 ≤ b.Cid.length) (hr : ∀ b ∈ blocks, b.inRange)
    (hk : blocks.length < 2 ^ 48) :
    ∃ (a : MakerArgs) (ident : Header → List Nat),
      e.NewLink origin blocks w =
        some (e.BlockMaker a,
          { made := w.made ++ [a], events := w.events ++ [⟨origin, e.BlockMaker a, none⟩] }) ∧
      a.blockContent =
        (if e.CompatPb then
          (blocks.map (fun b => [0x12] ++ VarintSlice (e.linkBody b).length ++ e.linkBody b)).flatten
            ++ e.dataSection blocks
        else
          e.dataSection blocks ++
          (blocks.map (fun b => [0x12] ++ VarintSlice (e.linkBody b).length ++ e.linkBody b)).flatten) ∧
      ∀ b ∈ blocks,
        e.linkBody b = [0x0a] ++ VarintSlice (ident b).length ++ ident b ++
          (if e.NonstandardLeanLinks then []
            else [0x12, 0x00] ++ [0x18] ++ VarintSlice b.SizeCumulativeDag) ∧
        (ident b = b.Cid.drop 2 ↔
          (e.LegacyCIDv0Links = true ∧ b.IsCidInlined = false ∧
            b.SizeCumulativePayload ≠ b.SizeCumulativeDag)) ∧
        (ident b = b.Cid ↔
          ¬ (e.LegacyCIDv0Links = true ∧ b.IsCidInlined = false ∧
            b.SizeCumulativePayload ≠ b.SizeCumulativeDag)) := by
  refine ⟨_, e.writtenCid, NewLink_eq e origin blocks w hc hr hk _ rfl, rfl, fun b hb => ?_⟩
  exact ⟨rfl, writtenCid_iff e b (hc b hb)⟩


/-- C7 at a concrete input: with CIDv0 links the raw leaf keeps its identifier
and the interior node loses the first two bytes of its identifier. -/
theorem C7_NewLink_written_identifier_witness :
    (∀ b ∈ [rawLeafA, innerNode], 2 ≤ b.Cid.length) ∧
    (∀ b ∈ [rawLeafA, innerNode], b.inRange) ∧
    [rawLeafA, innerNode].length < 2 ^ 48 ∧
    ∃ (a : MakerArgs) (ident : Header → List Nat),
      (sampleEnc false true false 2).NewLink origin0 [rawLeafA, innerNode] w0 =
        some (sampleMaker a,
          { made := w0.made ++ [a], events := w0.events ++ [⟨origin0, sampleMaker a, none⟩] }) ∧
      a.blockContent =
        (if (sampleEnc false true false 2).CompatPb then
          ([rawLeafA, innerNode].map (fun b =>
            [0x12] ++ VarintSlice ((sampleEnc false true false 2).linkBody b).length ++
              (sampleEnc false true false 2).linkBody b)).flatten
            ++ (sampleEnc false true false 2).dataSection [rawLeafA, innerNode]
        else
          (sampleEnc false true false 2).dataSection [rawLeafA, innerNode] ++
          ([rawLeafA, innerNode].map (fun b =>
            [0x12] ++ VarintSlice ((sampleEnc false true false 2).linkBody b).length ++
              (sampleEnc false true false 2).linkBody b)).flatten) ∧
      ∀ b ∈ [rawLeafA, innerNode],
        (sampleEnc false true false 2).linkBody b =
          [0x0a] ++ VarintSlice (ident b).length ++ ident b ++
          (if (sampleEnc false true false 2).NonstandardLeanLinks then []
            else [0x12, 0x00] ++ [0x18] ++ VarintSlice b.SizeCumulativeDag) ∧
        (ident b = b.Cid.drop 2 ↔
          ((sampleEnc false true false 2).LegacyCIDv0Links = true ∧ b.IsCidInlined = false ∧
            b.SizeCumulativePayload ≠ b.SizeCumulativeDag)) ∧
        (ident b = b.Cid ↔
          ¬ ((sampleEnc false true false 2).LegacyCIDv0Links = true ∧ b.IsCidInlined = false ∧
            b.SizeCumulativePayload ≠ b.SizeCumulativeDag)) :=
  ⟨by decide, by decide, by decide,
    C7_NewLink_written_identifier (sampleEnc false true false 2) origin0 [rawLeafA, innerNode] w0
      (by decide) (by decide) (by decide)⟩

theorem linkEntry_standard (e : encoder) (hlean : e.NonstandardLeanLinks = false) :
    e.linkEntry = fun b =>
      [0x12] ++ VarintSlice ([0x0a] ++ VarintSlice (e.writtenCid b).length ++ e.writtenCid b ++
          [0x12, 0x00] ++ [0x18] ++ VarintSlice b.SizeCumulativeDag).length ++
        ([0x0a] ++ VarintSlice (e.writtenCid b).length ++ e.writtenCid b ++
          [0x12, 0x00] ++ [0x18] ++ VarintSlice b.SizeCumulativeDag) := by
  funext b
  simp only [encoder.linkEntry, encoder.linkBody, hlean, Bool.false_eq_true, if_false,
    List.append_assoc]

theorem seekEntry_standard (e : encoder) (hlean : e.NonstandardLeanLinks = false) :
    e.seekEntry = fun b => [0x20] ++ VarintSlice b.SizeCumulativePayload := by
  funext b
  simp only [encoder.seekEntry, hlean, Bool.false_eq_true, if_false]

/-- C8: with `NonstandardLeanLinks = false` and `CompatPb = false`, for a link
set `c_1..c_k` (sizes in range, payload sum below `2^64`) the block bytes are
`D ++ E_1 ++ ... ++ E_k` in child order, with `D = [0x0a] ++ varint(|M|) ++ M`,
`M = [0x08, 0x02, 0x18] ++ varint(sum of payload sizes) ++`
`concat_i([0x20] ++ varint(payload_i))`, `E_i = [0x12] ++ varint(|B_i|) ++ B_i`
and `B_i = [0x0a] ++ varint(|id_i|) ++ id_i ++ [0x12, 0x00] ++ [0x18] ++ varint(dagsize_i)`,
`id_i` being the identifier as written. -/
theorem C8_NewLink_standard_bytes (e : encoder) (origin : NodeOrigin) (blocks : List Header)
    (w : World) (hlean : e.NonstandardLeanLinks = false) (hpb : e.CompatPb = false)
    (hc : ∀ b ∈ blocks, 2 ≤ b.Cid.length) (hr : ∀ b ∈ blocks, b.inRange)
    (hk : blocks.length < 2 ^ 48)
    (hsum : (blocks.map Header.SizeCumulativePayload).sum < 2 ^ 64) :
    ∃ (a : MakerArgs) (M : List Nat) (B : Header → List Nat),
      e.NewLink origin blocks w =
        some (e.BlockMaker a,
          { made := w.made ++ [a], events := w.events ++ [⟨origin, e.BlockMaker a, none⟩] }) ∧
      M = [0x08, 0x02, 0x18] ++ VarintSlice (blocks.map Header.SizeCumulativePayload).sum ++
        (blocks.map (fun b => [0x20] ++ VarintSlice b.SizeCumulativePayload)).flatten ∧
      (∀ b, B b = [0x0a] ++ VarintSlice (e.writtenCid b).length ++ e.writtenCid b ++
        [0x12, 0x00] ++ [0x18] ++ VarintSlice b.SizeCumulativeDag) ∧
      a.blockContent = ([0x0a] ++ VarintSlice M.length ++ M) ++
        (blocks.map (fun b => [0x12] ++ VarintSlice (B b).length ++ B b)).flatten := by
  refine ⟨_, _, _, NewLink_eq e origin blocks w hc hr hk _ rfl, rfl, fun b => rfl, ?_⟩
  simp only [hpb, Bool.false_eq_true, if_false, encoder.dataSection, encoder.metaMessage,
    encoder.linksSection, linkEntry_standard e hlean, seekEntry_standard e hlean,
    totalPayloadOf, Nat.mod_eq_of_lt hsum]

/-- C8 at a concrete input, the scenario of the specification: two raw-leaf
children; the block starts with the data field (type 2, file size 8, block
sizes 5 and 3) and continues with two link entries holding hash, empty name and
tsize. -/
theorem C8_NewLink_standard_bytes_witness :
    (∀ b ∈ [rawLeafA, rawLeafB], 2 ≤ b.Cid.length) ∧
    (∀ b ∈ [rawLeafA, rawLeafB], b.inRange) ∧
    [rawLeafA, rawLeafB].length < 2 ^ 48 ∧
    ([rawLeafA, rawLeafB].map Header.SizeCumulativePayload).sum < 2 ^ 64 ∧
    (∃ (a : MakerArgs) (M : List Nat) (B : Header → List Nat),
      (sampleEnc false false false 2).NewLink origin0 [rawLeafA, rawLeafB] w0 =
        some (sampleMaker a,
          { made := w0.made ++ [a], events := w0.events ++ [⟨origin0, sampleMaker a, none⟩] }) ∧
      M = [0x08, 0x02, 0x18] ++
        VarintSlice ([rawLeafA, rawLeafB].map Header.SizeCumulativePayload).sum ++
        ([rawLeafA, rawLeafB].map
          (fun b => [0x20] ++ VarintSlice b.SizeCumulativePayload)).flatten ∧
      (∀ b, B b = [0x0a] ++ VarintSlice ((sampleEnc false false false 2).writtenCid b).length ++
        (sampleEnc false false false 2).writtenCid b ++
        [0x12, 0x00] ++ [0x18] ++ VarintSlice b.SizeCumulativeDag) ∧
      a.blockContent = ([0x0a] ++ VarintSlice M.length ++ M) ++
        ([rawLeafA, rawLeafB].map
          (fun b => [0x12] ++ VarintSlice (B b).length ++ B b)).flatten) ∧
    ((sampleEnc false false false 2).NewLink origin0 [rawLeafA, rawLeafB] w0).map
        (fun r => r.2.made) =
      some [⟨[0x0a, 0x08, 0x08, 0x02, 0x18, 0x08, 0x20, 0x05, 0x20, 0x03,
              0x12, 0x0c, 0x0a, 0x06, 1, 0x55, 0x12, 0x20, 7, 7, 0x12, 0x00, 0x18, 0x05,
              0x12, 0x0c, 0x0a, 0x06, 1, 0x55, 0x12, 0x20, 9, 9, 0x12, 0x00, 0x18, 0x03],
             Codec.CodecPB, 8, 8, 28⟩] :=
  ⟨by decide, by decide, by decide, by decide,
    C8_NewLink_standard_bytes (sampleEnc false false false 2) origin0 [rawLeafA, rawLeafB] w0
      rfl rfl (by decide) (by decide) (by decide) (by decide),
    by decide⟩



/-- C9: for a link set of fewer than `2^48` children whose identifiers have at
least 2 (and fewer than `2^48`) bytes and whose sizes are `uint64`, and any
setting of the other flags, with `D`
the outer data field and `L` the links section (neither depends on `CompatPb`),
`NewLink` hands the block factory `D ++ L` when `CompatPb` is false and
`L ++ D` when it is true; codec, payload total, children dag sum and
link-section size are the same in the two cases. -/
theorem C9_CompatPb_swaps_sections (cidv0 lean : Bool) (t : Int) (mk : MakerArgs → Header)
    (origin : NodeOrigin) (blocks : List Header) (w : World)
    (hc : ∀ b ∈ blocks, 2 ≤ b.Cid.length) (hr : ∀ b ∈ blocks, b.inRange)
    (hk : blocks.length < 2 ^ 48) :
    ∃ (D L : List Nat) (total dag : Nat) (n : Int),
      D = encoder.dataSection ⟨false, cidv0, lean, t, mk⟩ blocks ∧
      D = encoder.dataSection ⟨true, cidv0, lean, t, mk⟩ blocks ∧
      L = encoder.linksSection ⟨false, cidv0, lean, t, mk⟩ blocks ∧
      L = encoder.linksSection ⟨true, cidv0, lean, t, mk⟩ blocks ∧
      encoder.NewLink ⟨false, cidv0, lean, t, mk⟩ origin blocks w =
        some (mk ⟨D ++ L, Codec.CodecPB, total, dag, n⟩,
          { made := w.made ++ [⟨D ++ L, Codec.CodecPB, total, dag, n⟩],
            events := w.events ++ [⟨origin, mk ⟨D ++ L, Codec.CodecPB, total, dag, n⟩, none⟩] }) ∧
      encoder.NewLink ⟨true, cidv0, lean, t, mk⟩ origin blocks w =
        some (mk ⟨L ++ D, Codec.CodecPB, total, dag, n⟩,
          { made := w.made ++ [⟨L ++ D, Codec.CodecPB, total, dag, n⟩],
            events := w.events ++ [⟨origin, mk ⟨L ++ D, Codec.CodecPB, total, dag, n⟩, none⟩] }) := by
  refine ⟨encoder.dataSection ⟨false, cidv0, lean, t, mk⟩ blocks,
    encoder.linksSection ⟨false, cidv0, lean, t, mk⟩ blocks, totalPayloadOf blocks,
    subDagSizeOf blocks,
    ((encoder.linksSection ⟨false, cidv0, lean, t, mk⟩ blocks).length : Int),
    rfl, rfl, rfl, rfl, ?_, ?_⟩
  · exact NewLink_eq ⟨false, cidv0, lean, t, mk⟩ origin blocks w hc hr hk _ rfl
  · exact NewLink_eq ⟨true, cidv0, lean, t, mk⟩ origin blocks w hc hr hk _ rfl

/-- C9 at a concrete input: a raw leaf and an interior node, CIDv0 links. -/
theorem C9_CompatPb_swaps_sections_witness :
    (∀ b ∈ [rawLeafA, innerNode], 2 ≤ b.Cid.length) ∧
    (∀ b ∈ [rawLeafA, innerNode], b.inRange) ∧
    [rawLeafA, innerNode].length < 2 ^ 48 ∧
    ∃ (D L : List Nat) (total dag : Nat) (n : Int),
      D = encoder.dataSection ⟨false, true, false, 2, sampleMaker⟩ [rawLeafA, innerNode] ∧
      D = encoder.dataSection ⟨true, true, false, 2, sampleMaker⟩ [rawLeafA, innerNode] ∧
      L = encoder.linksSection ⟨false, true, false, 2, sampleMaker⟩ [rawLeafA, innerNode] ∧
      L = encoder.linksSection ⟨true, true, false, 2, sampleMaker⟩ [rawLeafA, innerNode] ∧
      encoder.NewLink ⟨false, true, false, 2, sampleMaker⟩ origin0 [rawLeafA, innerNode] w0 =
        some (sampleMaker ⟨D ++ L, Codec.CodecPB, total, dag, n⟩,
          { made := w0.made ++ [⟨D ++ L, Codec.CodecPB, total, dag, n⟩],
            events := w0.events ++
              [⟨origin0, sampleMaker ⟨D ++ L, Codec.CodecPB, total, dag, n⟩, none⟩] }) ∧
      encoder.NewLink ⟨true, true, false, 2, sampleMaker⟩ origin0 [rawLeafA, innerNode] w0 =
        some (sampleMaker ⟨L ++ D, Codec.CodecPB, total, dag, n⟩,
          { made := w0.made ++ [⟨L ++ D, Codec.CodecPB, total, dag, n⟩],
            events := w0.events ++
              [⟨origin0, sampleMaker ⟨L ++ D, Codec.CodecPB, total, dag, n⟩, none⟩] }) :=
  ⟨by decide, by decide, by decide,
    C9_CompatPb_swaps_sections true false 2 sampleMaker origin0 [rawLeafA, innerNode] w0
      (by decide) (by decide) (by decide)⟩

theorem linksSection_length (e : encoder) (blocks : List Header) :
    (e.linksSection blocks).length = (blocks.map (fun b => (e.linkEntry b).length)).sum := by
  unfold encoder.linksSection
  induction blocks with
  | nil => rfl
  | cons b bs ih =>
    simp only [List.map_cons, List.flatten_cons, List.length_append, List.sum_cons, ih]

/-- C10: for a link set of fewer than `2^48` children whose identifiers have at
least 2 (and fewer than `2^48`) bytes and whose sizes are `uint64`, the
link-section size `NewLink` hands to the block factory is the byte
length of the links section alone: the sum over the children of the lengths of
their link entries, which is the length of the produced block minus the length
of the outer data field. -/
theorem C10_NewLink_link_section_size (e : encoder) (origin : NodeOrigin)
    (blocks : List Header) (w : World)
    (hc : ∀ b ∈ blocks, 2 ≤ b.Cid.length) (hr : ∀ b ∈ blocks, b.inRange)
    (hk : blocks.length < 2 ^ 48) :
    ∃ a : MakerArgs,
      e.NewLink origin blocks w =
        some (e.BlockMaker a,
          { made := w.made ++ [a], events := w.events ++ [⟨origin, e.BlockMaker a, none⟩] }) ∧
      a.blockContent =
        (if e.CompatPb then e.linksSection blocks ++ e.dataSection blocks
          else e.dataSection blocks ++ e.linksSection blocks) ∧
      a.sizeLinkSection = ((e.linksSection blocks).length : Int) ∧
      a.sizeLinkSection = (((blocks.map (fun b => (e.linkEntry b).length)).sum : Nat) : Int) ∧
      a.sizeLinkSection =
        (a.blockContent.length : Int) - ((e.dataSection blocks).length : Int) := by
  refine ⟨_, NewLink_eq e origin blocks w hc hr hk _ rfl, rfl, rfl, ?_, ?_⟩
  · simp only [linksSection_length]
  · cases e.CompatPb
    · simp only [Bool.false_eq_true, if_false, List.length_append, Nat.cast_add]
      omega
    · simp only [if_true, List.length_append, Nat.cast_add]
      omega

/-- C10 at a concrete input: a raw leaf and an interior node, lean links. -/
theorem C10_NewLink_link_section_size_witness :
    (∀ b ∈ [rawLeafA, innerNode], 2 ≤ b.Cid.length) ∧
    (∀ b ∈ [rawLeafA, innerNode], b.inRange) ∧
    [rawLeafA, innerNode].length < 2 ^ 48 ∧
    ∃ a : MakerArgs,
      (sampleEnc true false true 2).NewLink origin0 [rawLeafA, innerNode] w0 =
        some (sampleMaker a,
          { made := w0.made ++ [a], events := w0.events ++ [⟨origin0, sampleMaker a, none⟩] }) ∧
      a.blockContent =
        (if (sampleEnc true false true 2).CompatPb then
          (sampleEnc true false true 2).linksSection [rawLeafA, innerNode] ++
            (sampleEnc true false true 2).dataSection [rawLeafA, innerNode]
          else (sampleEnc true false true 2).dataSection [rawLeafA, innerNode] ++
            (sampleEnc true false true 2).linksSection [rawLeafA, innerNode]) ∧
      a.sizeLinkSection =
        (((sampleEnc true false true 2).linksSection [rawLeafA, innerNode]).length : Int) ∧
      a.sizeLinkSection = ((([rawLeafA, innerNode].map
        (fun b => ((sampleEnc true false true 2).linkEntry b).length)).sum : Nat) : Int) ∧
      a.sizeLinkSection = (a.blockContent.length : Int) -
        (((sampleEnc true false true 2).dataSection [rawLeafA, innerNode]).length : Int) :=
  ⟨by decide, by decide, by decide,
    C10_NewLink_link_section_size (sampleEnc true false true 2) origin0 [rawLeafA, innerNode] w0
      (by decide) (by decide) (by decide)⟩

/-- C1 fails on the code: with `LegacyCIDv0Links` set, for the interior node
`innerNode` (not inlined, payload size 5, dag size 15, identifier of 6 bytes)
`LinkframeSize` returns 14, while the iteration of `NewLink` for this child
appends 12 bytes to the links section (the identifier is written without its
first two bytes), and `NewLink` reports a links section of 12 bytes. -/
theorem C1_LinkframeSize_overestimates_truncated :
    (sampleEnc false true false 2).LinkframeSize innerNode = 14 ∧
    (sampleEnc false true false 2).linkStep ⟨[], [], 0, 0⟩ innerNode =
      some ⟨[0x12, 0x0a, 0x0a, 0x04, 0x12, 0x20, 8, 8, 0x12, 0x00, 0x18, 0x0f],
        [0x20, 0x05], 5, 15⟩ ∧
    ([0x12, 0x0a, 0x0a, 0x04, 0x12, 0x20, 8, 8, 0x12, 0x00, 0x18, 0x0f] : List Nat).length = 12 ∧
    ((sampleEnc false true false 2).NewLink origin0 [innerNode] w0).map
        (fun r => r.2.made.map MakerArgs.sizeLinkSection) = some [12] := by
  decide



theorem linkEntry_lean (e : encoder) (hlean : e.NonstandardLeanLinks = true) :
    e.linkEntry = fun b =>
      [0x12] ++ VarintSlice (1 + (VarintSlice (e.writtenCid b).length).length +
          (e.writtenCid b).length) ++
        [0x0a] ++ VarintSlice (e.writtenCid b).length ++ e.writtenCid b := by
  funext b
  unfold encoder.linkEntry
  rw [linkBody_length]
  unfold encoder.linkBody
  simp only [hlean, if_true, List.append_nil, List.append_assoc]

theorem seekEntries_lean (e : encoder) (hlean : e.NonstandardLeanLinks = true)
    (blocks : List Header) : (blocks.map e.seekEntry).flatten = [] := by
  induction blocks with
  | nil => rfl
  | cons b bs ih =>
    simp only [List.map_cons, List.flatten_cons, ih, encoder.seekEntry, hlean, if_true,
      List.append_nil]

/-- C11: with `NonstandardLeanLinks = true` (sizes in range, payload sum
`total` below `2^64`) each child's link entry is exactly
`[0x12] ++ varint(1 + |varint(|id|)| + |id|) ++ [0x0a] ++ varint(|id|) ++ id`,
without name and dag-size fields, and the outer data field is exactly
`[0x0a] ++ varint(3 + |varint(total)|) ++ [0x08, 0x02, 0x18] ++ varint(total)`,
without per-child payload-size entries; the block is the two sections in the
order `CompatPb` selects. -/
theorem C11_NewLink_lean_bytes (e : encoder) (origin : NodeOrigin) (blocks : List Header)
    (w : World) (hlean : e.NonstandardLeanLinks = true)
    (hc : ∀ b ∈ blocks, 2 ≤ b.Cid.length) (hr : ∀ b ∈ blocks, b.inRange)
    (hk : blocks.length < 2 ^ 48)
    (hsum : (blocks.map Header.SizeCumulativePayload).sum < 2 ^ 64) :
    ∃ (a : MakerArgs) (D L : List Nat),
      e.NewLink origin blocks w =
        some (e.BlockMaker a,
          { made := w.made ++ [a], events := w.events ++ [⟨origin, e.BlockMaker a, none⟩] }) ∧
      a.blockContent = (if e.CompatPb then L ++ D else D ++ L) ∧
      L = (blocks.map (fun b =>
        [0x12] ++ VarintSlice (1 + (VarintSlice (e.writtenCid b).length).length +
            (e.writtenCid b).length) ++
          [0x0a] ++ VarintSlice (e.writtenCid b).length ++ e.writtenCid b)).flatten ∧
      D = [0x0a] ++
        VarintSlice (3 + (VarintSlice (blocks.map Header.SizeCumulativePayload).sum).length) ++
        [0x08, 0x02, 0x18] ++ VarintSlice (blocks.map Header.SizeCumulativePayload).sum := by
  refine ⟨_, e.dataSection blocks, e.linksSection blocks,
    NewLink_eq e origin blocks w hc hr hk _ rfl, rfl, ?_, ?_⟩
  · simp only [encoder.linksSection, linkEntry_lean e hlean]
  · unfold encoder.dataSection
    rw [metaMessage_length]
    simp only [encoder.metaMessage, seekEntries_lean e hlean, totalPayloadOf,
      Nat.mod_eq_of_lt hsum, List.length_nil, Nat.add_zero, List.append_nil, List.append_assoc]

/-- C11 at a concrete input: a raw leaf and an interior node, lean links. -/
theorem C11_NewLink_lean_bytes_witness :
    (∀ b ∈ [rawLeafA, innerNode], 2 ≤ b.Cid.length) ∧
    (∀ b ∈ [rawLeafA, innerNode], b.inRange) ∧
    [rawLeafA, innerNode].length < 2 ^ 48 ∧
    ([rawLeafA, innerNode].map Header.SizeCumulativePayload).sum < 2 ^ 64 ∧
    (∃ (a : MakerArgs) (D L : List Nat),
      (sampleEnc false false true 2).NewLink origin0 [rawLeafA, innerNode] w0 =
        some (sampleMaker a,
          { made := w0.made ++ [a], events := w0.events ++ [⟨origin0, sampleMaker a, none⟩] }) ∧
      a.blockContent = (if (sampleEnc false false true 2).CompatPb then L ++ D else D ++ L) ∧
      L = ([rawLeafA, innerNode].map (fun b =>
        [0x12] ++ VarintSlice (1 +
            (VarintSlice ((sampleEnc false false true 2).writtenCid b).length).length +
            ((sampleEnc false false true 2).writtenCid b).length) ++
          [0x0a] ++ VarintSlice ((sampleEnc false false true 2).writtenCid b).length ++
          (sampleEnc false false true 2).writtenCid b)).flatten ∧
      D = [0x0a] ++
        VarintSlice (3 +
          (VarintSlice ([rawLeafA, innerNode].map Header.SizeCumulativePayload).sum).length) ++
        [0x08, 0x02, 0x18] ++
        VarintSlice ([rawLeafA, innerNode].map Header.SizeCumulativePayload).sum) ∧
    ((sampleEnc false false true 2).NewLink origin0 [rawLeafA, innerNode] w0).map
        (fun r => r.2.made) =
      some [⟨[0x0a, 0x04, 0x08, 0x02, 0x18, 0x0a,
              0x12, 0x08, 0x0a, 0x06, 1, 0x55, 0x12, 0x20, 7, 7,
              0x12, 0x08, 0x0a, 0x06, 1, 0x70, 0x12, 0x20, 8, 8],
             Codec.CodecPB, 10, 20, 20⟩] :=
  ⟨by decide, by decide, by decide, by decide,
    C11_NewLink_lean_bytes (sampleEnc false false true 2) origin0 [rawLeafA, innerNode] w0
      rfl (by decide) (by decide) (by decide) (by decide),
    by decide⟩

/-- C12: with the callback as an event log, `NewLink` (on a link set whose
identifiers have at least two bytes) and `IpfsCompatibleNulLink` each append
exactly one event, carrying the caller's origin, the header the call returns
and a nil auxiliary value, after the earlier events, which stay as they were;
`NewLeaf` leaves the log as it was (`LinkframeSize` is a function of the header
alone and has no access to the log). -/
theorem C12_callback_events (e : encoder) (origin : NodeOrigin) (blocks : List Header)
    (ls : LeafSource) (w : World) (hc : ∀ b ∈ blocks, 2 ≤ b.Cid.length) :
    (∃ (h : Header) (w2 : World), e.NewLink origin blocks w = some (h, w2) ∧
      w2.events = w.events ++ [⟨origin, h, none⟩]) ∧
    (e.IpfsCompatibleNulLink origin w).2.events =
      w.events ++ [⟨origin, (e.IpfsCompatibleNulLink origin w).1, none⟩] ∧
    (e.NewLeaf ls w).2.events = w.events := by
  obtain ⟨L, S, h⟩ := linkLoop_shape e blocks hc
  refine ⟨⟨_, _, NewLink_of_loop e origin blocks w _ h, rfl⟩, rfl, ?_⟩
  unfold encoder.NewLeaf
  split
  · rfl
  · split
    · rfl
    · rfl

/-- C12 at a concrete input. -/
theorem C12_callback_events_witness :
    (∀ b ∈ [rawLeafA, innerNode], 2 ≤ b.Cid.length) ∧
    ((∃ (h : Header) (w2 : World),
      (sampleEnc false true false 2).NewLink origin0 [rawLeafA, innerNode] w0 = some (h, w2) ∧
      w2.events = w0.events ++ [⟨origin0, h, none⟩]) ∧
    ((sampleEnc false true false 2).IpfsCompatibleNulLink origin0 w0).2.events =
      w0.events ++
        [⟨origin0, ((sampleEnc false true false 2).IpfsCompatibleNulLink origin0 w0).1, none⟩] ∧
    ((sampleEnc false true false 2).NewLeaf ⟨[0x68, 0x69], 2⟩ w0).2.events = w0.events) :=
  ⟨by decide,
    C12_callback_events (sampleEnc false true false 2) origin0 [rawLeafA, innerNode]
      ⟨[0x68, 0x69], 2⟩ w0 (by decide)⟩

/-- C13: in every configuration `compatNulBlock`, and so
`IpfsCompatibleNulLink`, calls the block factory with exactly the 6 bytes
`0a 04 08 02 18 00`, codec DAG-protobuf and sizes 0, 0, 0; the reference parser
reads these bytes as a single field 1 whose embedded message is field 1
varint = 2, field 3 varint = 0, with no content field and no links. -/
theorem C13_compatNulBlock_bytes (e : encoder) (origin : NodeOrigin) (w : World) :
    e.compatNulBlock w =
      (e.BlockMaker ⟨[0x0a, 0x04, 0x08, 0x02, 0x18, 0x00], Codec.CodecPB, 0, 0, 0⟩,
       { made := w.made ++ [⟨[0x0a, 0x04, 0x08, 0x02, 0x18, 0x00], Codec.CodecPB, 0, 0, 0⟩],
         events := w.events }) ∧
    e.IpfsCompatibleNulLink origin w =
      (e.BlockMaker ⟨[0x0a, 0x04, 0x08, 0x02, 0x18, 0x00], Codec.CodecPB, 0, 0, 0⟩,
       { made := w.made ++ [⟨[0x0a, 0x04, 0x08, 0x02, 0x18, 0x00], Codec.CodecPB, 0, 0, 0⟩],
         events := w.events ++
          [⟨origin,
            e.BlockMaker ⟨[0x0a, 0x04, 0x08, 0x02, 0x18, 0x00], Codec.CodecPB, 0, 0, 0⟩,
            none⟩] }) ∧
    parseMessage [0x0a, 0x04, 0x08, 0x02, 0x18, 0x00] =
      some [PbField.bytes 1 [0x08, 0x02, 0x18, 0x00]] ∧
    parseMessage [0x08, 0x02, 0x18, 0x00] = some [PbField.varint 1 2, PbField.varint 3 0] :=
  ⟨rfl, rfl, by decide, by decide⟩

/-- C14: decoding the unsigned LEB128 encoding `VarintSlice n` gives back `n`
and leaves what follows unread, for every natural number `n` (so for every
`uint64`); the encodings of 0, 127, 128, 16383, 16384 and `2^63 - 1` are as
expected. -/
theorem C14_varint_roundtrip :
    (∀ (n : Nat) (rest : List Nat), decodeVarint (VarintSlice n ++ rest) = some (n, rest)) ∧
    (∀ n : Nat, decodeVarint (VarintSlice n) = some (n, [])) ∧
    VarintSlice 0 = [0x00] ∧ VarintSlice 127 = [0x7f] ∧ VarintSlice 128 = [0x80, 0x01] ∧
    VarintSlice 16383 = [0xff, 0x7f] ∧ VarintSlice 16384 = [0x80, 0x80, 0x01] ∧
    VarintSlice (2 ^ 63 - 1) = [0xff, 0xff, 0xff, 0xff, 0xff, 0xff, 0xff, 0xff, 0x7f] ∧
    decodeVarint [0xff, 0xff, 0xff, 0xff, 0xff, 0xff, 0xff, 0xff, 0x7f] =
      some (2 ^ 63 - 1, []) := by
  refine ⟨decodeVarint_VarintSlice, fun n => ?_, by decide, by decide, by decide, by decide,
    by decide, by decide, by decide⟩
  have := decodeVarint_VarintSlice n []
  rwa [List.append_nil] at this

/-- C15: for every `uint64` value `n`, `VarintWireSize n` is the number of bytes
of `VarintSlice n`, between 1 and 10. -/
theorem C15_VarintWireSize_exact (n : Nat) (h : n < 2 ^ 64) :
    VarintWireSize n = ((VarintSlice n).length : Int) ∧
    1 ≤ VarintWireSize n ∧ VarintWireSize n ≤ 10 := by
  have h1 := VarintWireSize_eq_len n
  have h2 := VarintSlice_length_pos n
  have h3 := VarintSlice_length_le_ten n h
  unfold len at h1
  refine ⟨h1, ?_, ?_⟩ <;> omega

/-- C15 at the largest `uint64`: ten bytes. -/
theorem C15_VarintWireSize_exact_witness :
    (2 ^ 64 - 1 : Nat) < 2 ^ 64 ∧
    (VarintWireSize (2 ^ 64 - 1) = ((VarintSlice (2 ^ 64 - 1)).length : Int) ∧
    1 ≤ VarintWireSize (2 ^ 64 - 1) ∧ VarintWireSize (2 ^ 64 - 1) ≤ 10) :=
  ⟨by decide, C15_VarintWireSize_exact (2 ^ 64 - 1) (by decide)⟩

/-- C16: for every leaf decoration type other than raw and every leaf source
with declared size 0, whatever its content, `NewLeaf` does what
`compatNulBlock` does: the block factory receives the bytes
`0a 04 08 02 18 00` (type field 2, not the configured type), codec DAG-protobuf
and sizes 0, 0, 0. -/
theorem C16_NewLeaf_empty_is_compatNulBlock (e : encoder) (ls : LeafSource) (w : World)
    (hraw : e.UnixFsType ≠ -1) (hsz : ls.Size = 0) :
    e.NewLeaf ls w = e.compatNulBlock w ∧
    e.compatNulBlock w =
      (e.BlockMaker ⟨[0x0a, 0x04, 0x08, 0x02, 0x18, 0x00], Codec.CodecPB, 0, 0, 0⟩,
       { made := w.made ++ [⟨[0x0a, 0x04, 0x08, 0x02, 0x18, 0x00], Codec.CodecPB, 0, 0, 0⟩],
         events := w.events }) := by
  refine ⟨?_, rfl⟩
  unfold encoder.NewLeaf
  rw [if_neg hraw, if_pos hsz]

/-- C16 at concrete inputs: leaf types 0 and 7, with non-empty content. -/
theorem C16_NewLeaf_empty_is_compatNulBlock_witness :
    ((0 : Int) ≠ -1 ∧
      ((sampleEnc false false false 0).NewLeaf ⟨[1, 2, 3], 0⟩ w0 =
          (sampleEnc false false false 0).compatNulBlock w0 ∧
        (sampleEnc false false false 0).compatNulBlock w0 =
          (sampleMaker ⟨[0x0a, 0x04, 0x08, 0x02, 0x18, 0x00], Codec.CodecPB, 0, 0, 0⟩,
           { made := w0.made ++
              [⟨[0x0a, 0x04, 0x08, 0x02, 0x18, 0x00], Codec.CodecPB, 0, 0, 0⟩],
             events := w0.events }))) ∧
    ((7 : Int) ≠ -1 ∧
      ((sampleEnc true true true 7).NewLeaf ⟨[1, 2, 3], 0⟩ w0 =
          (sampleEnc true true true 7).compatNulBlock w0 ∧
        (sampleEnc true true true 7).compatNulBlock w0 =
          (sampleMaker ⟨[0x0a, 0x04, 0x08, 0x02, 0x18, 0x00], Codec.CodecPB, 0, 0, 0⟩,
           { made := w0.made ++
              [⟨[0x0a, 0x04, 0x08, 0x02, 0x18, 0x00], Codec.CodecPB, 0, 0, 0⟩],
             events := w0.events }))) :=
  ⟨⟨by decide,
      C16_NewLeaf_empty_is_compatNulBlock (sampleEnc false false false 0) ⟨[1, 2, 3], 0⟩ w0
        (by decide) rfl⟩,
    ⟨by decide,
      C16_NewLeaf_empty_is_compatNulBlock (sampleEnc true true true 7) ⟨[1, 2, 3], 0⟩ w0
        (by decide) rfl⟩⟩

theorem dataSection_nil (e : encoder) :
    e.dataSection [] = [0x0a, 0x04, 0x08, 0x02, 0x18, 0x00] := by
  unfold encoder.dataSection
  rw [metaMessage_length]
  unfold encoder.metaMessage
  simp only [List.map_nil, List.flatten_nil, List.length_nil]
  decide

/-- C20: `NewLink` does not reject an empty link set: in every configuration
`NewLink(origin, [])` completes and gives exactly what
`IpfsCompatibleNulLink(origin)` gives: the block factory receives the bytes
`0a 04 08 02 18 00` with codec DAG-protobuf and sizes 0, 0, 0, and the callback
is invoked once with the origin and the returned header. -/
theorem C20_NewLink_empty_link_set (e : encoder) (origin : NodeOrigin) (w : World) :
    e.NewLink origin [] w = some (e.IpfsCompatibleNulLink origin w) ∧
    e.NewLink origin [] w =
      some (e.BlockMaker ⟨[0x0a, 0x04, 0x08, 0x02, 0x18, 0x00], Codec.CodecPB, 0, 0, 0⟩,
        { made := w.made ++ [⟨[0x0a, 0x04, 0x08, 0x02, 0x18, 0x00], Codec.CodecPB, 0, 0, 0⟩],
          events := w.events ++
            [⟨origin,
              e.BlockMaker ⟨[0x0a, 0x04, 0x08, 0x02, 0x18, 0x00], Codec.CodecPB, 0, 0, 0⟩,
              none⟩] }) := by
  have h : e.NewLink origin [] w =
      some (e.BlockMaker ⟨[0x0a, 0x04, 0x08, 0x02, 0x18, 0x00], Codec.CodecPB, 0, 0, 0⟩,
        { made := w.made ++ [⟨[0x0a, 0x04, 0x08, 0x02, 0x18, 0x00], Codec.CodecPB, 0, 0, 0⟩],
          events := w.events ++
            [⟨origin,
              e.BlockMaker ⟨[0x0a, 0x04, 0x08, 0x02, 0x18, 0x00], Codec.CodecPB, 0, 0, 0⟩,
              none⟩] }) := by
    apply NewLink_eq e origin [] w (fun b hb => absurd hb (List.not_mem_nil b))
      (fun b hb => absurd hb (List.not_mem_nil b)) (by decide)
    rw [dataSection_nil]
    cases e.CompatPb <;> rfl
  exact ⟨h, h⟩


/-! ## Length prefixes, lean links and `LinkframeSize` -/

theorem VarintSlice_length_mono (b : Nat) : ∀ a : Nat, a ≤ b →
    (VarintSlice a).length ≤ (VarintSlice b).length := by
  induction b using Nat.strong_induction_on with
  | _ b ih =>
    intro a hab
    by_cases ha : a > 127
    · have hb : b > 127 := by omega
      have := ih (b / 128) (by omega) (a / 128) (Nat.div_le_div_right hab)
      rw [VarintSlice_eq a, VarintSlice_eq b, if_pos ha, if_pos hb]
      simp only [List.length_cons]
      omega
    · rw [VarintSlice_eq a, if_neg ha]
      exact VarintSlice_length_pos b

theorem linkEntry_length (e : encoder) (b : Header) :
    (e.linkEntry b).length =
      1 + (VarintSlice (e.linkBody b).length).length + (e.linkBody b).length := by
  unfold encoder.linkEntry
  simp only [List.length_append, List.length_cons, List.length_nil]

/-- The value of `LinkframeSize` for a header in range: no `int` operation
wraps. -/
theorem LinkframeSize_eq (e : encoder) (b : Header) (hr : b.inRange) (sz : Nat)
    (hsz : sz = b.Cid.length + (1 + (VarintSlice b.Cid.length).length) +
      (if e.NonstandardLeanLinks then 0 else 3 + (VarintSlice b.SizeCumulativeDag).length)) :
    e.LinkframeSize b = ((1 + (VarintSlice sz).length + sz : Nat) : Int) := by
  obtain ⟨hr1, _, hr3⟩ := hr
  have hv1 := VarintSlice_length_le_ten b.Cid.length (by omega)
  have hvd := VarintSlice_length_le_ten b.SizeCumulativeDag hr3
  have e1 : uint64OfInt (len b.Cid) = b.Cid.length := uint64OfInt_natCast _ (by omega)
  have e2 : wrapInt (len b.Cid + (1 + VarintWireSize b.Cid.length)) =
      ((b.Cid.length + (1 + (VarintSlice b.Cid.length).length) : Nat) : Int) := by
    rw [VarintWireSize_eq_len]
    unfold wrapInt len
    omega
  simp only [encoder.LinkframeSize, e1, e2]
  cases hl : e.NonstandardLeanLinks
  · simp only [hl, Bool.false_eq_true, if_false] at hsz
    have e3 : wrapInt (((b.Cid.length + (1 + (VarintSlice b.Cid.length).length) : Nat) : Int) +
        (3 + VarintWireSize b.SizeCumulativeDag)) = (sz : Int) := by
      rw [VarintWireSize_eq_len, hsz]
      unfold wrapInt len
      omega
    have hv2 := VarintSlice_length_le_ten sz (by omega)
    simp only [Bool.not_false, if_true, e3]
    simp only [uint64OfInt_natCast sz (by omega), VarintWireSize_eq_len]
    unfold wrapInt len
    omega
  · simp only [hl, if_true, Nat.add_zero] at hsz
    have hv2 := VarintSlice_length_le_ten sz (by omega)
    simp only [Bool.not_true, Bool.false_eq_true, if_false, ← hsz]
    simp only [uint64OfInt_natCast sz (by omega), VarintWireSize_eq_len]
    unfold wrapInt len
    omega


/-- C17: for a link set of fewer than `2^48` children whose identifiers have at
least 2 (and fewer than `2^48`) bytes and whose sizes are `uint64`, every
length prefix in the block `NewLink` builds is exact: the block
is the data field `[0x0a] ++ varint(|M|) ++ M` and the link entries
`[0x12] ++ varint(|B|) ++ B` in the order `CompatPb` selects, where `M` is the
file-metadata message, of `3 + |varint(total payload)| +` (size of the seek
offsets) bytes, and `B` is the child's entry body: the identifier sub-field
and, unless links are lean, the empty name field and the dag-size field; the
varint read after each tag is the length of what follows it. -/
theorem C17_NewLink_length_prefixes (e : encoder) (origin : NodeOrigin)
    (blocks : List Header) (w : World)
    (hc : ∀ b ∈ blocks, 2 ≤ b.Cid.length) (hr : ∀ b ∈ blocks, b.inRange)
    (hk : blocks.length < 2 ^ 48) :
    ∃ (a : MakerArgs) (M : List Nat) (B : Header → List Nat),
      e.NewLink origin blocks w =
        some (e.BlockMaker a,
          { made := w.made ++ [a], events := w.events ++ [⟨origin, e.BlockMaker a, none⟩] }) ∧
      a.blockContent =
        (if e.CompatPb then
          (blocks.map (fun b => [0x12] ++ VarintSlice (B b).length ++ B b)).flatten ++
            ([0x0a] ++ VarintSlice M.length ++ M)
        else
          ([0x0a] ++ VarintSlice M.length ++ M) ++
            (blocks.map (fun b => [0x12] ++ VarintSlice (B b).length ++ B b)).flatten) ∧
      M = [0x08, 0x02, 0x18] ++ VarintSlice (totalPayloadOf blocks) ++
        (blocks.map e.seekEntry).flatten ∧
      M.length = 3 + (VarintSlice (totalPayloadOf blocks)).length +
        ((blocks.map e.seekEntry).flatten).length ∧
      decodeVarint (VarintSlice M.length ++ M) = some (M.length, M) ∧
      ∀ b : Header,
        B b = [0x0a] ++ VarintSlice (e.writtenCid b).length ++ e.writtenCid b ++
          (if e.NonstandardLeanLinks then []
            else [0x12, 0x00] ++ [0x18] ++ VarintSlice b.SizeCumulativeDag) ∧
        (B b).length =
          (if e.NonstandardLeanLinks then
            1 + (VarintSlice (e.writtenCid b).length).length + (e.writtenCid b).length
          else
            1 + (VarintSlice (e.writtenCid b).length).length + (e.writtenCid b).length + 3 +
              (VarintSlice b.SizeCumulativeDag).length) ∧
        decodeVarint (VarintSlice (B b).length ++ B b) = some ((B b).length, B b) := by
  refine ⟨_, e.metaMessage blocks, e.linkBody, NewLink_eq e origin blocks w hc hr hk _ rfl,
    rfl, rfl, metaMessage_length e blocks, decodeVarint_VarintSlice _ _, fun b => ?_⟩
  exact ⟨rfl, linkBody_length e b, decodeVarint_VarintSlice _ _⟩

/-- C17 at a concrete input: a raw leaf and an interior node, links first. -/
theorem C17_NewLink_length_prefixes_witness :
    (∀ b ∈ [rawLeafA, innerNode], 2 ≤ b.Cid.length) ∧
    (∀ b ∈ [rawLeafA, innerNode], b.inRange) ∧
    [rawLeafA, innerNode].length < 2 ^ 48 ∧
    ∃ (a : MakerArgs) (M : List Nat) (B : Header → List Nat),
      (sampleEnc true true false 2).NewLink origin0 [rawLeafA, innerNode] w0 =
        some (sampleMaker a,
          { made := w0.made ++ [a], events := w0.events ++ [⟨origin0, sampleMaker a, none⟩] }) ∧
      a.blockContent =
        (if (sampleEnc true true false 2).CompatPb then
          ([rawLeafA, innerNode].map
              (fun b => [0x12] ++ VarintSlice (B b).length ++ B b)).flatten ++
            ([0x0a] ++ VarintSlice M.length ++ M)
        else
          ([0x0a] ++ VarintSlice M.length ++ M) ++
            ([rawLeafA, innerNode].map
              (fun b => [0x12] ++ VarintSlice (B b).length ++ B b)).flatten) ∧
      M = [0x08, 0x02, 0x18] ++ VarintSlice (totalPayloadOf [rawLeafA, innerNode]) ++
        ([rawLeafA, innerNode].map (sampleEnc true true false 2).seekEntry).flatten ∧
      M.length = 3 + (VarintSlice (totalPayloadOf [rawLeafA, innerNode])).length +
        (([rawLeafA, innerNode].map (sampleEnc true true false 2).seekEntry).flatten).length ∧
      decodeVarint (VarintSlice M.length ++ M) = some (M.length, M) ∧
      ∀ b : Header,
        B b = [0x0a] ++ VarintSlice ((sampleEnc true true false 2).writtenCid b).length ++
          (sampleEnc true true false 2).writtenCid b ++
          (if (sampleEnc true true false 2).NonstandardLeanLinks then []
            else [0x12, 0x00] ++ [0x18] ++ VarintSlice b.SizeCumulativeDag) ∧
        (B b).length =
          (if (sampleEnc true true false 2).NonstandardLeanLinks then
            1 + (VarintSlice ((sampleEnc true true false 2).writtenCid b).length).length +
              ((sampleEnc true true false 2).writtenCid b).length
          else
            1 + (VarintSlice ((sampleEnc true true false 2).writtenCid b).length).length +
              ((sampleEnc true true false 2).writtenCid b).length + 3 +
              (VarintSlice b.SizeCumulativeDag).length) ∧
        decodeVarint (VarintSlice (B b).length ++ B b) = some ((B b).length, B b) :=
  ⟨by decide, by decide, by decide,
    C17_NewLink_length_prefixes (sampleEnc true true false 2) origin0 [rawLeafA, innerNode] w0
      (by decide) (by decide) (by decide)⟩

theorem sum_map_lt (f g : Header → Nat) (blocks : List Header) (hne : blocks ≠ [])
    (h : ∀ b ∈ blocks, f b < g b) : (blocks.map f).sum < (blocks.map g).sum := by
  induction blocks with
  | nil => exact absurd rfl hne
  | cons b bs ih =>
    have hb := h b (List.mem_cons_self _ _)
    simp only [List.map_cons, List.sum_cons]
    by_cases hbs : bs = []
    · subst hbs
      simpa using hb
    · have := ih hbs (fun x hx => h x (List.mem_cons_of_mem _ hx))
      omega

theorem linkEntry_length_lean_lt (pb cidv0 : Bool) (t : Int) (mk : MakerArgs → Header)
    (b : Header) :
    (encoder.linkEntry ⟨pb, cidv0, true, t, mk⟩ b).length <
      (encoder.linkEntry ⟨pb, cidv0, false, t, mk⟩ b).length := by
  rw [linkEntry_length, linkEntry_length, linkBody_length, linkBody_length]
  simp only [if_true, Bool.false_eq_true, if_false]
  have hw : encoder.writtenCid ⟨pb, cidv0, true, t, mk⟩ b =
      encoder.writtenCid ⟨pb, cidv0, false, t, mk⟩ b := rfl
  rw [hw]
  have := VarintSlice_length_mono
    (1 + (VarintSlice (encoder.writtenCid ⟨pb, cidv0, false, t, mk⟩ b).length).length +
      (encoder.writtenCid ⟨pb, cidv0, false, t, mk⟩ b).length + 3 +
      (VarintSlice b.SizeCumulativeDag).length)
    (1 + (VarintSlice (encoder.writtenCid ⟨pb, cidv0, false, t, mk⟩ b).length).length +
      (encoder.writtenCid ⟨pb, cidv0, false, t, mk⟩ b).length) (by omega)
  omega

theorem dataSection_length_lean_le (pb cidv0 : Bool) (t : Int) (mk : MakerArgs → Header)
    (blocks : List Header) :
    (encoder.dataSection ⟨pb, cidv0, true, t, mk⟩ blocks).length ≤
      (encoder.dataSection ⟨pb, cidv0, false, t, mk⟩ blocks).length := by
  unfold encoder.dataSection
  simp only [List.length_append, List.length_cons, List.length_nil, metaMessage_length]
  rw [seekEntries_lean ⟨pb, cidv0, true, t, mk⟩ rfl blocks]
  have := VarintSlice_length_mono
    (3 + (VarintSlice (totalPayloadOf blocks)).length +
      ((blocks.map (encoder.seekEntry ⟨pb, cidv0, false, t, mk⟩)).flatten).length)
    (3 + (VarintSlice (totalPayloadOf blocks)).length + ([] : List Nat).length)
    (by simp only [List.length_nil]; omega)
  simp only [List.length_nil] at this ⊢
  omega

/-- C18: for a non-empty link set (sizes in range) and fixed `CompatPb`,
`LegacyCIDv0Links`, leaf type and block factory, the block `NewLink` builds
with `NonstandardLeanLinks = true` is strictly shorter than the one it builds
with `NonstandardLeanLinks = false`; and for every header in range
`LinkframeSize` is strictly smaller in lean mode than in non-lean mode. -/
theorem C18_lean_is_shorter (pb cidv0 : Bool) (t : Int) (mk : MakerArgs → Header)
    (origin : NodeOrigin) (blocks : List Header) (w : World) (hne : blocks ≠ [])
    (hc : ∀ b ∈ blocks, 2 ≤ b.Cid.length) (hr : ∀ b ∈ blocks, b.inRange)
    (hk : blocks.length < 2 ^ 48) :
    (∃ argsL argsS : MakerArgs,
      encoder.NewLink ⟨pb, cidv0, true, t, mk⟩ origin blocks w =
        some (mk argsL,
          { made := w.made ++ [argsL], events := w.events ++ [⟨origin, mk argsL, none⟩] }) ∧
      encoder.NewLink ⟨pb, cidv0, false, t, mk⟩ origin blocks w =
        some (mk argsS,
          { made := w.made ++ [argsS], events := w.events ++ [⟨origin, mk argsS, none⟩] }) ∧
      argsL.blockContent.length < argsS.blockContent.length) ∧
    (∀ b : Header, b.inRange →
      encoder.LinkframeSize ⟨pb, cidv0, true, t, mk⟩ b <
        encoder.LinkframeSize ⟨pb, cidv0, false, t, mk⟩ b) := by
  constructor
  · refine ⟨_, _, NewLink_eq ⟨pb, cidv0, true, t, mk⟩ origin blocks w hc hr hk _ rfl,
      NewLink_eq ⟨pb, cidv0, false, t, mk⟩ origin blocks w hc hr hk _ rfl, ?_⟩
    have hD := dataSection_length_lean_le pb cidv0 t mk blocks
    have hL : (encoder.linksSection ⟨pb, cidv0, true, t, mk⟩ blocks).length <
        (encoder.linksSection ⟨pb, cidv0, false, t, mk⟩ blocks).length := by
      rw [linksSection_length, linksSection_length]
      exact sum_map_lt _ _ blocks hne (fun b _ => linkEntry_length_lean_lt pb cidv0 t mk b)
    cases pb
    · simp only [Bool.false_eq_true, if_false, List.length_append]
      omega
    · simp only [if_true, List.length_append]
      omega
  · intro b hb
    rw [LinkframeSize_eq ⟨pb, cidv0, true, t, mk⟩ b hb _ rfl,
      LinkframeSize_eq ⟨pb, cidv0, false, t, mk⟩ b hb _ rfl]
    simp only [if_true, Bool.false_eq_true, if_false, Nat.add_zero]
    have := VarintSlice_length_mono
      (b.Cid.length + (1 + (VarintSlice b.Cid.length).length) +
        (3 + (VarintSlice b.SizeCumulativeDag).length))
      (b.Cid.length + (1 + (VarintSlice b.Cid.length).length)) (by omega)
    omega

/-- C18 at a concrete input: a raw leaf and an interior node. -/
theorem C18_lean_is_shorter_witness :
    [rawLeafA, innerNode] ≠ [] ∧
    (∀ b ∈ [rawLeafA, innerNode], 2 ≤ b.Cid.length) ∧
    (∀ b ∈ [rawLeafA, innerNode], b.inRange) ∧
    [rawLeafA, innerNode].length < 2 ^ 48 ∧
    ((∃ argsL argsS : MakerArgs,
      encoder.NewLink ⟨false, true, true, 2, sampleMaker⟩ origin0 [rawLeafA, innerNode] w0 =
        some (sampleMaker argsL,
          { made := w0.made ++ [argsL],
            events := w0.events ++ [⟨origin0, sampleMaker argsL, none⟩] }) ∧
      encoder.NewLink ⟨false, true, false, 2, sampleMaker⟩ origin0 [rawLeafA, innerNode] w0 =
        some (sampleMaker argsS,
          { made := w0.made ++ [argsS],
            events := w0.events ++ [⟨origin0, sampleMaker argsS, none⟩] }) ∧
      argsL.blockContent.length < argsS.blockContent.length) ∧
    (∀ b : Header, b.inRange →
      encoder.LinkframeSize ⟨false, true, true, 2, sampleMaker⟩ b <
        encoder.LinkframeSize ⟨false, true, false, 2, sampleMaker⟩ b)) :=
  ⟨by decide, by decide, by decide, by decide,
    C18_lean_is_shorter false true 2 sampleMaker origin0 [rawLeafA, innerNode] w0
      (by decide) (by decide) (by decide) (by decide)⟩

/-- C19: for a header in range whose identifier has at least two bytes, the
iteration of `NewLink` for this child appends `contributed` bytes to the links
section, and `LinkframeSize` is never smaller than `contributed`: it is equal
exactly when the identifier is not truncated (`LegacyCIDv0Links` off, or
identifier inlined, or payload size equal to dag size), and it exceeds
`contributed` by at least 2 when the identifier is truncated. -/
theorem C19_LinkframeSize_upper_bound (e : encoder) (st : LinkLoop) (b : Header)
    (hc : 2 ≤ b.Cid.length) (hr : b.inRange) :
    ∃ (st2 : LinkLoop) (contributed : Nat),
      e.linkStep st b = some st2 ∧
      st2.linkSection.length = st.linkSection.length + contributed ∧
      (contributed : Int) ≤ e.LinkframeSize b ∧
      (e.LinkframeSize b = (contributed : Int) ↔
        ¬ (e.LegacyCIDv0Links = true ∧ b.IsCidInlined = false ∧
          b.SizeCumulativePayload ≠ b.SizeCumulativeDag)) ∧
      ((e.LegacyCIDv0Links = true ∧ b.IsCidInlined = false ∧
          b.SizeCumulativePayload ≠ b.SizeCumulativeDag) →
        (contributed : Int) + 2 ≤ e.LinkframeSize b) := by
  refine ⟨_, (e.linkEntry b).length, linkStep_eq e st b hc hr, ?_, ?_⟩
  · simp only [List.length_append]
  rw [LinkframeSize_eq e b hr _ rfl, linkEntry_length, linkBody_length]
  by_cases htr : e.truncates b
  · have hw : (e.writtenCid b).length = b.Cid.length - 2 := by
      unfold encoder.writtenCid
      rw [if_pos htr, List.length_drop]
    have htr2 : e.LegacyCIDv0Links = true ∧ b.IsCidInlined = false ∧
        b.SizeCumulativePayload ≠ b.SizeCumulativeDag := htr
    have m1 := VarintSlice_length_mono b.Cid.length (b.Cid.length - 2) (by omega)
    rw [hw]
    cases hl : e.NonstandardLeanLinks
    · simp only [Bool.false_eq_true, if_false]
      have m2 := VarintSlice_length_mono
        (b.Cid.length + (1 + (VarintSlice b.Cid.length).length) +
          (3 + (VarintSlice b.SizeCumulativeDag).length))
        (1 + (VarintSlice (b.Cid.length - 2)).length + (b.Cid.length - 2) + 3 +
          (VarintSlice b.SizeCumulativeDag).length) (by omega)
      refine ⟨by omega, ⟨fun h => by omega, fun h => absurd htr2 h⟩, fun _ => by omega⟩
    · simp only [if_true, Nat.add_zero]
      have m2 := VarintSlice_length_mono
        (b.Cid.length + (1 + (VarintSlice b.Cid.length).length))
        (1 + (VarintSlice (b.Cid.length - 2)).length + (b.Cid.length - 2)) (by omega)
      refine ⟨by omega, ⟨fun h => by omega, fun h => absurd htr2 h⟩, fun _ => by omega⟩
  · have hw : e.writtenCid b = b.Cid := by
      unfold encoder.writtenCid
      rw [if_neg htr]
    have htr2 : ¬ (e.LegacyCIDv0Links = true ∧ b.IsCidInlined = false ∧
        b.SizeCumulativePayload ≠ b.SizeCumulativeDag) := htr
    rw [hw]
    cases hl : e.NonstandardLeanLinks
    · simp only [Bool.false_eq_true, if_false]
      have e1 : b.Cid.length + (1 + (VarintSlice b.Cid.length).length) +
          (3 + (VarintSlice b.SizeCumulativeDag).length) =
          1 + (VarintSlice b.Cid.length).length + b.Cid.length + 3 +
            (VarintSlice b.SizeCumulativeDag).length := by omega
      rw [e1]
      exact ⟨le_refl _, ⟨fun _ => htr2, fun _ => rfl⟩, fun h => absurd h htr2⟩
    · simp only [if_true, Nat.add_zero]
      have e1 : b.Cid.length + (1 + (VarintSlice b.Cid.length).length) =
          1 + (VarintSlice b.Cid.length).length + b.Cid.length := by omega
      rw [e1]
      exact ⟨le_refl _, ⟨fun _ => htr2, fun _ => rfl⟩, fun h => absurd h htr2⟩

/-- C19 at concrete inputs, CIDv0 links: the raw leaf is not truncated, the
interior node is. -/
theorem C19_LinkframeSize_upper_bound_witness :
    (2 ≤ rawLeafA.Cid.length ∧ rawLeafA.inRange ∧
      ∃ (st2 : LinkLoop) (contributed : Nat),
        (sampleEnc false true false 2).linkStep ⟨[], [], 0, 0⟩ rawLeafA = some st2 ∧
        st2.linkSection.length = ([] : List Nat).length + contributed ∧
        (contributed : Int) ≤ (sampleEnc false true false 2).LinkframeSize rawLeafA ∧
        ((sampleEnc false true false 2).LinkframeSize rawLeafA = (contributed : Int) ↔
          ¬ ((sampleEnc false true false 2).LegacyCIDv0Links = true ∧
            rawLeafA.IsCidInlined = false ∧
            rawLeafA.SizeCumulativePayload ≠ rawLeafA.SizeCumulativeDag)) ∧
        (((sampleEnc false true false 2).LegacyCIDv0Links = true ∧
            rawLeafA.IsCidInlined = false ∧
            rawLeafA.SizeCumulativePayload ≠ rawLeafA.SizeCumulativeDag) →
          (contributed : Int) + 2 ≤ (sampleEnc false true false 2).LinkframeSize rawLeafA)) ∧
    (2 ≤ innerNode.Cid.length ∧ innerNode.inRange ∧
      ∃ (st2 : LinkLoop) (contributed : Nat),
        (sampleEnc false true false 2).linkStep ⟨[], [], 0, 0⟩ innerNode = some st2 ∧
        st2.linkSection.length = ([] : List Nat).length + contributed ∧
        (contributed : Int) ≤ (sampleEnc false true false 2).LinkframeSize innerNode ∧
        ((sampleEnc false true false 2).LinkframeSize innerNode = (contributed : Int) ↔
          ¬ ((sampleEnc false true false 2).LegacyCIDv0Links = true ∧
            innerNode.IsCidInlined = false ∧
            innerNode.SizeCumulativePayload ≠ innerNode.SizeCumulativeDag)) ∧
        (((sampleEnc false true false 2).LegacyCIDv0Links = true ∧
            innerNode.IsCidInlined = false ∧
            innerNode.SizeCumulativePayload ≠ innerNode.SizeCumulativeDag) →
          (contributed : Int) + 2 ≤ (sampleEnc false true false 2).LinkframeSize innerNode)) :=
  ⟨⟨by decide, by decide,
      C19_LinkframeSize_upper_bound (sampleEnc false true false 2) ⟨[], [], 0, 0⟩ rawLeafA
        (by decide) (by decide)⟩,
    ⟨by decide, by decide,
      C19_LinkframeSize_upper_bound (sampleEnc false true false 2) ⟨[], [], 0, 0⟩ innerNode
        (by decide) (by decide)⟩⟩


end unixfsv1
